import Mathlib

/-!
Verification of the STAB string parser and type-graph builder of
`src/debugger/stabs.c` (wine-proton debugger).

The embedding is shallow: C strings become `List Char` with the NUL
terminator modelled implicitly (reading at index `length` yields NUL, as a
C scan reading the terminator would; reading strictly past it is undefined
behaviour and is modelled as `none`).  The process-wide mutable tables
(`cu_vector`, `include_defs`, `cu_include_stack`, `ktd_head`, the node
arena behind `DEBUG_NewDataType`) become one explicit `StabState` record.
Type nodes live in an arena `nodes : List Node`; a `struct datatype *` is
an arena index (`Nat`), and a possibly-NULL pointer is an `Option Nat`.
Diagnostics printed with `DEBUG_Printf` are recorded in a log list.

Functions keep the names of the C functions they embed where reasonable.
Calls into the external type catalog (`DEBUG_NewDataType`,
`DEBUG_SetStructSize`, ...) are not part of `src/`; those few definitions
are modelled from the specification's interface description (section 6)
and carry a doc comment saying so.
-/

/-- Characters of a C string; the NUL terminator is implicit. -/
abbrev Str := List Char

/-- The NUL character, used to model the C string terminator. -/
def NUL : Char := Char.ofNat 0

/-- Read the byte at index `i`: in-range characters of the string, NUL at or
past the terminator.  (C code only ever reads at most one past the last
character, namely the terminator itself; `charAtF` below enforces that.) -/
def charAt (s : Str) (i : Nat) : Char := s.getD i NUL

/-- Checked read: reading the terminator (index `length`) is legal and gives
NUL, reading past it is undefined behaviour, modelled as `none`. -/
def charAtF (s : Str) (i : Nat) : Option Char :=
  if i ≤ s.length then some (charAt s i) else none

/-- Decimal digit test, as `(*x>='0') && (*x<='9')` in the C source. -/
def isDigitC (c : Char) : Bool := decide ('0' ≤ c ∧ c ≤ '9')

/-- White-space test of `strtol` (the `isspace` set). -/
def isSpaceC (c : Char) : Bool :=
  decide (c = ' ' ∨ c = '\t' ∨ c = '\n' ∨ c = '\r' ∨ c = Char.ofNat 11 ∨ c = Char.ofNat 12)

/-- Bounded-iteration core of `spacesEnd` (structural recursion on the
remaining-length fuel, so that applications reduce definitionally). -/
def spacesEndGo (s : Str) : Nat → Nat → Nat
  | 0, i => i
  | f + 1, i => if i < s.length ∧ isSpaceC (charAt s i) then spacesEndGo s f (i + 1) else i

/-- First index at or after `i` holding a non-space character (the leading
white-space skip of `strtol`); stops at the terminator. -/
def spacesEnd (s : Str) (i : Nat) : Nat := spacesEndGo s (s.length + 1) i

/-- Bounded-iteration core of `digitsEnd`. -/
def digitsEndGo (s : Str) : Nat → Nat → Nat
  | 0, i => i
  | f + 1, i => if i < s.length ∧ isDigitC (charAt s i) then digitsEndGo s f (i + 1) else i

/-- First index at or after `i` holding a non-digit character; stops at the
terminator. -/
def digitsEnd (s : Str) (i : Nat) : Nat := digitsEndGo s (s.length + 1) i

/-- Bounded-iteration core of `digitsVal`. -/
def digitsValGo (s : Str) : Nat → Nat → Nat → Nat
  | 0, _, acc => acc
  | f + 1, i, acc =>
    if i < s.length ∧ isDigitC (charAt s i) then
      digitsValGo s f (i + 1) (acc * 10 + ((charAt s i).toNat - '0'.toNat))
    else acc

/-- Accumulated value of the decimal digits starting at `i`. -/
def digitsVal (s : Str) (i : Nat) (acc : Nat) : Nat := digitsValGo s (s.length + 1) i acc

/-- Base-10 `strtol`: skip white-space, optional sign, digits.  Returns the
value and the index one past the last digit; if no digits were consumed the
returned index is the original `i`, as `strtol` stores the original pointer.
Numeric overflow of `long` is not modelled (STAB numbers are small). -/
def strtolAt (s : Str) (i : Nat) : Int × Nat :=
  let j := spacesEnd s i
  let k := if charAt s j = '-' ∨ charAt s j = '+' then j + 1 else j
  let sgn : Int := if charAt s j = '-' then -1 else 1
  let e := digitsEnd s k
  if e = k then (0, i) else (sgn * (digitsVal s k 0 : Int), e)

/-- Checked `strtol`: starting at or before the terminator is legal,
starting past it reads out of bounds (undefined behaviour). -/
def strtolF (s : Str) (i : Nat) : Option (Int × Nat) :=
  if i ≤ s.length then some (strtolAt s i) else none

/-- Forward scan `while (*tc != t) tc++` for a character `t` that is not
NUL: the first index at or after `i` holding `t`.  If `t` does not occur the
C loop would run past the terminator, which is undefined behaviour
(`none`). -/
def scanCharFwdGo (s : Str) (t : Char) : Nat → Nat → Option Nat
  | 0, _ => none
  | f + 1, i =>
    if i < s.length then
      if charAt s i = t then some i else scanCharFwdGo s t f (i + 1)
    else none

/-- Forward character scan proper (fuel `s.length + 1` always suffices:
the scan stops at the latest when the index reaches the length). -/
def scanCharFwd (s : Str) (t : Char) (i : Nat) : Option Nat :=
  scanCharFwdGo s t (s.length + 1) i

/-- Backward scan `while (digit(*x)) x--`, on the successor of the start
index (structural recursion): the first index at or below the start
holding a non-digit.  Scanning below index 0 reads before the buffer
(undefined behaviour, `none`). -/
def scanDigitsBwdGo (s : Str) : Nat → Option Nat
  | 0 => none
  | n + 1 => if isDigitC (charAt s n) then scanDigitsBwdGo s n else some n

/-- Backward digit scan from the (integer) index `j`. -/
def scanDigitsBwd (s : Str) (j : Int) : Option Int :=
  if j < 0 then none else (scanDigitsBwdGo s (j.toNat + 1)).map (fun n => (n : Int))

/-- Backward scan `while (*x != '(') x--` on the successor of the start
index: the first index at or below the start holding `'('`; scanning below
index 0 is undefined behaviour. -/
def scanParenBwdGo (s : Str) : Nat → Option Nat
  | 0 => none
  | n + 1 => if charAt s n = '(' then some n else scanParenBwdGo s n

/-- Backward parenthesis scan from the (integer) index `j`. -/
def scanParenBwd (s : Str) (j : Int) : Option Int :=
  if j < 0 then none else (scanParenBwdGo s (j.toNat + 1)).map (fun n => (n : Int))

/-- Indices of the `'='` characters of a string, in increasing order: the
positions visited by the repeated `strchr(ptr, '=')` scans of
`DEBUG_ParseTypedefStab` and `DEBUG_HandlePreviousTypedef`. -/
def eqIndices (s : Str) : List Nat :=
  (List.range s.length).filter (fun i => decide (charAt s i = '='))

/-- Number of `'='` sub-definition markers in a record text. -/
def countEq (s : Str) : Nat := (eqIndices s).length


/-- Kind tags of type nodes, as `enum debug_type` of the debugger. -/
inductive DebugType where
  | DT_BASIC
  | DT_POINTER
  | DT_ARRAY
  | DT_STRUCT
  | DT_ENUM
  | DT_FUNC
deriving DecidableEq, Repr

/-- One member of a struct/union/enum, as added by `DEBUG_AddStructElement`:
for enums the type is `none` and the size 0, the value living in `offset`. -/
structure StructField where
  fname : Str
  ftype : Option Nat
  foffset : Int
  fsize : Int
deriving DecidableEq, Repr

/-- One type node of the external data-type catalog.  Modelled from the
spec: the catalog allocates tagged nodes (basic, pointer, array,
struct/union, enum, function) whose kind never changes afterwards, with
payload fields filled by the `set_*`/`add_*` calls; `structSize = none`
means "not yet sized", distinct from size 0. -/
structure Node where
  kind : DebugType
  nname : Option Str
  ptrTarget : Option Nat := none
  arrMin : Int := 0
  arrMax : Int := 0
  arrElem : Option Nat := none
  structSize : Option Int := none
  fields : List StructField := []
deriving DecidableEq, Repr

/-- Entry of the typedef dedup registry, as `struct known_typedef`:
the declared name and the node list recorded in pass-1 order. -/
structure KnownTypedef where
  ktname : Str
  ktypes : List (Option Nat)
deriving DecidableEq, Repr

/-- One include-file table, as `include_def`: identifying (name, value)
pair and the growable slot vector for its type numbers. -/
structure IncludeDef where
  iname : Str
  ivalue : Int
  ivector : List (Option Nat)
deriving DecidableEq, Repr

/-- Diagnostics printed through `DEBUG_Printf` on the paths embedded
here. -/
inductive LogMsg where
  | unknownType (c : Char)
  | unknownCondition
  | structFieldFailure (fname : Str)
deriving DecidableEq, Repr

/-- The process-wide mutable state of the STAB parser: the node arena of
the external catalog, the compilation-unit slot vector `cu_vector`, the
include-file collection `include_defs`, the include stack
`cu_include_stack` (position 0 is reserved for the compilation unit itself,
so the list holds positions 1..depth), the typedef registry `ktd_head`
(modelled as one list, newest first: a name determines its hash bucket, so
the first name match of the list is the first match of the bucket chain),
and the diagnostic log. -/
structure StabState where
  nodes : List Node
  cuVector : List (Option Nat)
  includeDefs : List IncludeDef
  includeStack : List Int
  registry : List KnownTypedef
  log : List LogMsg
deriving DecidableEq, Repr

/-- The empty state at the start of a parse run. -/
def initState : StabState :=
  { nodes := [], cuVector := [], includeDefs := [], includeStack := [], registry := [], log := [] }

/-- Append a diagnostic. -/
def pushLog (st : StabState) (m : LogMsg) : StabState :=
  { st with log := st.log ++ [m] }

/-- Modelled from the spec: `new_basic_type/new_struct_type/... -> type
handle` allocate a fresh node of the given kind (and optional name) in the
catalog; the handle is the arena index. -/
def newDataType (st : StabState) (k : DebugType) (nm : Option Str) : StabState × Nat :=
  ({ st with nodes := st.nodes ++ [{ kind := k, nname := nm }] }, st.nodes.length)

/-- Kind of the node behind a handle, as `DEBUG_GetType`.  Modelled from
the spec; a NULL or dangling handle is dereferenced by the C callee, which
is undefined behaviour (`none`). -/
def getTypeK (st : StabState) (h : Option Nat) : Option DebugType :=
  match h with
  | none => none
  | some id => (st.nodes[id]?).map (·.kind)

/-- Update the node at a valid arena index. -/
def updNode (st : StabState) (id : Nat) (f : Node → Node) : StabState :=
  { st with nodes := st.nodes.set id (f (st.nodes.getD id { kind := .DT_BASIC, nname := none })) }

/-- Modelled from the spec: `set_pointer_target(handle, target)`; a NULL
handle would be dereferenced (undefined behaviour). -/
def setPointerType (st : StabState) (h : Option Nat) (target : Option Nat) : Option StabState :=
  match h with
  | none => none
  | some id => if id < st.nodes.length then some (updNode st id (fun n => { n with ptrTarget := target })) else none

/-- Modelled from the spec: `set_array_bounds(handle, min, max, element)`. -/
def setArrayParams (st : StabState) (h : Option Nat) (mn mx : Int) (elem : Option Nat) : Option StabState :=
  match h with
  | none => none
  | some id => if id < st.nodes.length then some (updNode st id (fun n => { n with arrMin := mn, arrMax := mx, arrElem := elem })) else none

/-- Modelled from the spec: `set_struct_size(handle, bytes) -> bool (false
if already sized)`.  Result `some none` is the FALSE return (already
sized, node untouched); `some (some st)` is the TRUE return with the size
recorded; `none` is a NULL/dangling handle (undefined behaviour). -/
def setStructSize (st : StabState) (h : Option Nat) (sz : Int) : Option (Option StabState) :=
  match h with
  | none => none
  | some id =>
    match st.nodes[id]? with
    | none => none
    | some n =>
      if n.structSize = none then some (some (updNode st id (fun m => { m with structSize := some sz })))
      else some none

/-- Modelled from the spec: `add_struct_field(handle, name, type?, offset,
size)` and `add_enum_member` (enum members pass `type? = none`, size 0). -/
def addStructElement (st : StabState) (h : Option Nat) (nm : Str) (ty : Option Nat) (off sz : Int) : Option StabState :=
  match h with
  | none => none
  | some id => if id < st.nodes.length then some (updNode st id (fun n => { n with fields := n.fields ++ [⟨nm, ty, off, sz⟩] })) else none

/-- Grow a slot vector so that index `sub` exists, zero-filling (with
empty slots) as `DEBUG_FileSubNr2StabEnum` does via `DBG_realloc` +
`memset`. -/
def ivecGrow (v : List (Option Nat)) (sub : Nat) : List (Option Nat) :=
  if v.length ≤ sub then v ++ List.replicate (sub + 1 - v.length) none else v

/-- Embedding of the table-resolution part of `DEBUG_FileSubNr2StabEnum`:
grow the addressed table (the compilation-unit vector for `filenr = 0`,
otherwise the vector of the include file on stack position `filenr`).
Failure (`none`) covers the undefined or aborting cases: a negative
subscript, a negative file number, `assert(filenr <= cu_include_stk_idx)`
firing, or a stack entry that is not a valid `include_defs` index (such as
the -1 that `N_EXCL` can push). -/
def stabEnumTouch (st : StabState) (f sub : Int) : Option StabState :=
  if f = 0 then
    if sub < 0 then none
    else some { st with cuVector := ivecGrow st.cuVector sub.toNat }
  else if f < 0 then none
  else if st.includeStack.length < f.toNat then none
  else
    match st.includeStack[f.toNat - 1]? with
    | none => none
    | some idx =>
      if 0 ≤ idx ∧ idx.toNat < st.includeDefs.length then
        if sub < 0 then none
        else
          let d := (st.includeDefs[idx.toNat]?).getD ⟨[], 0, []⟩
          some { st with includeDefs :=
            st.includeDefs.set idx.toNat { d with ivector := ivecGrow d.ivector sub.toNat } }
      else none

/-- Value currently held by the slot `(f, sub)` (reading the slot that
`DEBUG_FileSubNr2StabEnum` returns a pointer to); same failure cases as
`stabEnumTouch`.  An unallocated slot reads as empty, which agrees with the
zero-filling growth. -/
def stabEnumRead (st : StabState) (f sub : Int) : Option (Option Nat) :=
  if f = 0 then
    if sub < 0 then none else some ((st.cuVector[sub.toNat]?).getD none)
  else if f < 0 then none
  else if st.includeStack.length < f.toNat then none
  else
    match st.includeStack[f.toNat - 1]? with
    | none => none
    | some idx =>
      if 0 ≤ idx ∧ idx.toNat < st.includeDefs.length then
        if sub < 0 then none
        else some ((((st.includeDefs[idx.toNat]?).getD ⟨[], 0, []⟩).ivector[sub.toNat]?).getD none)
      else none

/-- Store a value into slot `(f, sub)` (assignment through the pointer
returned by `DEBUG_FileSubNr2StabEnum`, growth included). -/
def stabEnumWrite (st : StabState) (f sub : Int) (x : Option Nat) : Option StabState :=
  if f = 0 then
    if sub < 0 then none
    else some { st with cuVector := (ivecGrow st.cuVector sub.toNat).set sub.toNat x }
  else if f < 0 then none
  else if st.includeStack.length < f.toNat then none
  else
    match st.includeStack[f.toNat - 1]? with
    | none => none
    | some idx =>
      if 0 ≤ idx ∧ idx.toNat < st.includeDefs.length then
        if sub < 0 then none
        else
          let d := (st.includeDefs[idx.toNat]?).getD ⟨[], 0, []⟩
          some { st with includeDefs :=
            st.includeDefs.set idx.toNat { d with ivector := (ivecGrow d.ivector sub.toNat).set sub.toNat x } }
      else none

/-- Text part of `DEBUG_ReadTypeEnumBackwards(x)`: starting from the byte
just before an `'='`, recognize either `...(<int>,<int>)` scanning left to
the `'('`, or trailing digits giving `(0, atol(x+1))`.  The caller then
resolves the pair with `stabEnumTouch`/`stabEnumRead`/`stabEnumWrite`,
which the C function does internally via `DEBUG_FileSubNr2StabEnum`. -/
def readTypeEnumBwd (s : Str) (x : Int) : Option (Int × Int) :=
  if x < 0 then none
  else if s.length < x.toNat then none
  else if charAt s x.toNat = ')' then
    match scanParenBwd s x with
    | none => none
    | some j =>
      match strtolF s (j + 1).toNat with
      | none => none
      | some (f, e1) =>
        match strtolF s (e1 + 1) with
        | none => none
        | some (sub, _) => some (f, sub)
  else
    match scanDigitsBwd s x with
    | none => none
    | some j =>
      match strtolF s (j + 1).toNat with
      | none => none
      | some (sub, _) => some (0, sub)

/-- Text part of `DEBUG_ReadTypeEnum(&x)`: at the cursor either
`(<int>,<int>)` or a bare integer; returns file number, subscript, and the
advanced cursor.  Slot resolution is again done by the caller. -/
def readTypeEnumKey (s : Str) (i : Nat) : Option (Int × Int × Nat) := do
  let c ← charAtF s i
  if c = '(' then do
    let (f, e1) ← strtolF s (i + 1)
    let (sub, e2) ← strtolF s (e1 + 1)
    some (f, sub, e2 + 1)
  else do
    let (sub, e) ← strtolF s i
    some (0, sub, e)

/-- Embedding of `stab_strcpy(element_name, 1024, source)`: copy up to the
first `':'` or the terminator; the `assert(sz > 0)` aborts when 1024 or
more characters were to be copied. -/
def stabStrcpy (s : Str) (i : Nat) : Option Str :=
  let nm := (s.drop i).takeWhile (fun c => decide (c ≠ ':'))
  if nm.length ≤ 1023 then some nm else none

/-- Member-name copy `while (*tc != ':') *tc2++ = *tc++; tc++;` of the
struct and enum element loops: requires a `':'` before the terminator (the
scan would otherwise run past the buffer) and fewer than 1024 characters
(the 1024-byte `element_name` buffer would otherwise overflow).  Returns
the name and the cursor just past the `':'`. -/
def readFieldName (s : Str) (i : Nat) : Option (Str × Nat) := do
  let j ← scanCharFwd s ':' i
  let nm := (s.drop i).take (j - i)
  if nm.length ≤ 1023 then some (nm, j + 1) else none

/-- Expected node kind for a sub-definition tag character, as the `switch`
of `DEBUG_HandlePreviousTypedef`: `some none` is the `'('` wildcard (a
reference, skipped), `none` an unknown tag. -/
def expectOf (c : Char) : Option (Option DebugType) :=
  if c = '*' then some (some .DT_POINTER)
  else if c = 's' ∨ c = 'u' then some (some .DT_STRUCT)
  else if c = 'a' then some (some .DT_ARRAY)
  else if c = '(' then some none
  else if c = '1' ∨ c = 'r' then some (some .DT_BASIC)
  else if c = 'x' then some (some .DT_STRUCT)
  else if c = 'e' then some (some .DT_ENUM)
  else if c = 'f' then some (some .DT_FUNC)
  else none

/-- First counting loop of `DEBUG_HandlePreviousTypedef`: walk the `'='`
positions of the text, comparing each tag against the kind of the cached
node at the same position; result `false` is a shape mismatch (or unknown
tag, which is logged), `true` a full match with equal counts.  `none` is
`DEBUG_GetType` applied to a NULL cached pointer (undefined behaviour). -/
def shapeCheck (ktypes : List (Option Nat)) (text : Str) :
    StabState → List Nat → Nat → Option (StabState × Bool)
  | st, [], count => some (st, decide (count = ktypes.length))
  | st, i :: rest, count =>
    if ktypes.length ≤ count then some (st, false)
    else
      match expectOf (charAt text (i + 1)) with
      | none => some (pushLog st (.unknownType (charAt text (i + 1))), false)
      | some none => shapeCheck ktypes text st rest (count + 1)
      | some (some k) =>
        match getTypeK st (ktypes.getD count none) with
        | none => none
        | some k2 =>
          if k = k2 then shapeCheck ktypes text st rest (count + 1) else some (st, false)

/-- Second loop of `DEBUG_HandlePreviousTypedef`: for each `'='` position,
rebind the slot found by the backward type-number scan to the cached node
of the same position. -/
def rebindLoop (text : Str) (ktypes : List (Option Nat)) :
    StabState → List Nat → Nat → Option StabState
  | st, [], _ => some st
  | st, i :: rest, count => do
    let (f, sub) ← readTypeEnumBwd text ((i : Int) - 1)
    let st' ← stabEnumWrite st f sub (ktypes.getD count none)
    rebindLoop text ktypes st' rest (count + 1)

/-- Embedding of `DEBUG_HandlePreviousTypedef(name, stab)`: look the name
up in the registry (first name match, as in the hash chain), check the
shape, and on a full match rebind every `'='` slot to the cached nodes,
reporting `true` (handled); otherwise report `false` (unseen). -/
def handlePreviousTypedef (st : StabState) (name text : Str) : Option (StabState × Bool) :=
  match st.registry.find? (fun e => decide (e.ktname = name)) with
  | none => some (st, false)
  | some ktd =>
    match shapeCheck ktd.ktypes text st (eqIndices text) 0 with
    | none => none
    | some (st1, false) => some (st1, false)
    | some (st1, true) =>
      match rebindLoop text ktd.ktypes st1 (eqIndices text) 0 with
      | none => none
      | some st2 => some (st2, true)

/-- Embedding of `DEBUG_RegisterTypedef(name, types, ndef)`: a single
definition is not registered; otherwise the entry is prepended to its hash
chain (so a later lookup finds the newest entry for a name first). -/
def registerTypedef (st : StabState) (name : Str) (types : List (Option Nat)) : StabState :=
  if types.length = 1 then st
  else { st with registry := ⟨name, types⟩ :: st.registry }

/-- Outcome of the pass-1 tag `switch` at one `'='` position. -/
inductive SkelRes where
  | ub
  | unknown
  | ref
  | mk (k : DebugType) (nm : Option Str)
deriving DecidableEq, Repr

/-- Pass-1 tag dispatch of `DEBUG_ParseTypedefStab` at `'='` index `i`:
which skeleton (kind and name) to allocate, `ref` for the `'('`
placeholder, `unknown` for the logged `return FALSE`, `ub` when the
`stab_strcpy` of an `'x'` cross-reference name aborts. -/
def skelOf (text : Str) (i : Nat) (tn : Option Str) : SkelRes :=
  let tag := charAt text (i + 1)
  if tag = '*' then .mk .DT_POINTER none
  else if tag = 's' ∨ tag = 'u' then .mk .DT_STRUCT tn
  else if tag = 'a' then .mk .DT_ARRAY none
  else if tag = '(' then .ref
  else if tag = '1' ∨ tag = 'r' then .mk .DT_BASIC tn
  else if tag = 'x' then
    match stabStrcpy text (i + 3) with
    | none => .ub
    | some nm => .mk .DT_STRUCT (some nm)
  else if tag = 'e' then .mk .DT_ENUM none
  else if tag = 'f' then .mk .DT_FUNC none
  else .unknown

/-- Pass 1 of `DEBUG_ParseTypedefStab`: walk the `'='` positions left to
right; for each, resolve the slot of the preceding type number and fill it
with a fresh skeleton node chosen by the tag character, recording the node
(or a `none` placeholder for `'('` references) in the scratch list.  The
declared name is consumed by the first skeleton (`typename = NULL` after
each iteration).  Result `false` is the unknown-tag `return FALSE`. -/
def pass1 (text : Str) :
    StabState → List Nat → Option Str → List (Option Nat) →
    Option (StabState × List (Option Nat) × Bool)
  | st, [], _, acc => some (st, acc, true)
  | st, i :: rest, tn, acc => do
    let (f, sub) ← readTypeEnumBwd text ((i : Int) - 1)
    let st1 ← stabEnumTouch st f sub
    match skelOf text i tn with
    | .ub => none
    | .unknown => some (pushLog st1 (.unknownType (charAt text (i + 1))), acc, false)
    | .ref => pass1 text st1 rest none (acc ++ [none])
    | .mk k nm => do
      let (st2, id) := newDataType st1 k nm
      let st3 ← stabEnumWrite st2 f sub (some id)
      pass1 text st3 rest none (acc ++ [some id])

/-- Common tail of every pass-2 case: cut the text at the `'='` position
`ci` and, unless the cursor reached the terminator, append the remaining
tail from `tc + skip` (the in-place `*c = '\0'` / `strcpy(c, tc)` /
`strcpy(c, tc + 1)` truncations; `skip` is 0 or 1). -/
def truncAfter (text : Str) (ci tc skip : Nat) : Option Str := do
  let c ← charAtF text tc
  if c = NUL then some (text.take ci) else some (text.take ci ++ text.drop (tc + skip))

/-- Pass-2 case `'x'`: step over the embedded cross-reference name (used
already in pass 1) up to its `':'` and truncate. -/
def xCase (st : StabState) (text : Str) (ci : Nat) : Option (StabState × Str) := do
  let j ← scanCharFwd text ':' (ci + 3)
  let t' ← truncAfter text ci (j + 1) 0
  some (st, t')

/-- Pass-2 cases `'*'` and `'f'`: read the target/return type reference and
bind it as the pointer target of the skeleton. -/
def ptrCase (st : StabState) (text : Str) (ci : Nat) (curr : Option Nat) :
    Option (StabState × Str) := do
  let (f2, s2, tc) ← readTypeEnumKey text (ci + 2)
  let st1 ← stabEnumTouch st f2 s2
  let dtv ← stabEnumRead st1 f2 s2
  let st2 ← setPointerType st1 curr dtv
  let t' ← truncAfter text ci tc 0
  some (st2, t')

/-- Pass-2 case `'('` (plain reference): alias this slot to the referenced
slot when only the latter holds a node; when neither does, synthesize a
fresh basic node into both; any other combination is only logged.  The
slot value (re-read after the writes, as `curr_types[ntp--] = *dt`) is
recorded in the scratch list at position `ntp`; an out-of-range `ntp`
would index outside `curr_types` (undefined behaviour). -/
def crossCase (st : StabState) (text : Str) (ci : Nat) (fOwn sOwn : Int) (curr : Option Nat)
    (ctypes : List (Option Nat)) (ntp : Int) (tn : Option Str) :
    Option (StabState × Str × List (Option Nat)) := do
  let (f2, s2, tc) ← readTypeEnumKey text (ci + 1)
  let st1 ← stabEnumTouch st f2 s2
  let dtv ← stabEnumRead st1 f2 s2
  let st2 ←
    match curr, dtv with
    | none, some n => stabEnumWrite st1 fOwn sOwn (some n)
    | none, none => do
      let (sta, id) := newDataType st1 .DT_BASIC tn
      let stb ← stabEnumWrite sta f2 s2 (some id)
      stabEnumWrite stb fOwn sOwn (some id)
    | some _, _ => some (pushLog st1 .unknownCondition)
  let t' ← truncAfter text ci tc 0
  let nv ← stabEnumRead st2 fOwn sOwn
  if 0 ≤ ntp ∧ ntp < (ctypes.length : Int) then
    some (st2, t', ctypes.set ntp.toNat nv)
  else none

/-- Pass-2 cases `'1'`/`'r'`: the skeleton is complete; `*c = '\0'`
discards the rest (a range qualifier after `'r'` is intentionally
ignored). -/
def basicCase (st : StabState) (text : Str) (ci : Nat) : Option (StabState × Str) :=
  some (st, text.take ci)

/-- Pass-2 case `'a'`: skip the index-type reference, read the two signed
decimal bounds and the element type reference, truncate, and record
`(min, max, element)` on the skeleton. -/
def arrayCase (st : StabState) (text : Str) (ci : Nat) (curr : Option Nat) :
    Option (StabState × Str) := do
  let (fA, sA, tc1) ← readTypeEnumKey text (ci + 3)
  let st1 ← stabEnumTouch st fA sA
  let (mn, tc2) ← strtolF text (tc1 + 1)
  let (mx, tc3) ← strtolF text (tc2 + 1)
  let (fE, sE, tc4) ← readTypeEnumKey text (tc3 + 1)
  let st2 ← stabEnumTouch st1 fE sE
  let dtv ← stabEnumRead st2 fE sE
  let t' ← truncAfter text ci tc4 0
  let st3 ← setArrayParams st2 curr mn mx dtv
  some (st3, t')

/-- The skip scan `while (tc[0] != ';' && tc[1] != ';') tc++` of the
already-sized struct branch: first index whose character, or the next
one, is `';'`.  Reaching the terminator without a stop would read past the
buffer (undefined behaviour). -/
def structSkipScanGo (s : Str) : Nat → Nat → Option Nat
  | 0, _ => none
  | f + 1, j =>
    if j < s.length then
      if charAt s j = ';' ∨ charAt s (j + 1) = ';' then some j
      else structSkipScanGo s f (j + 1)
    else none

/-- Skip scan proper. -/
def structSkipScan (s : Str) (j : Nat) : Option Nat :=
  structSkipScanGo s (s.length + 1) j

/-- Struct/union member loop: parse `<name>:<type-ref>,<offset>,<size>;`
groups until the terminating `';'`, adding resolved members to the node
and logging one failure per member whose type reference holds no node
(the loop still continues).  Returns the final state, the cursor at the
terminating `';'`, and the number of failed members.  (The C writes a NUL
at the end of each type reference before reading the offset; that position
is never read again before the enclosing truncation discards it, so the
write is observationally a no-op here.) -/
def fieldLoop (text : Str) (curr : Option Nat) :
    Nat → StabState → Nat → Nat → Option (StabState × Nat × Nat)
  | 0, _, _, _ => none
  | fuel + 1, st, tc, nfail => do
    let c0 ← charAtF text tc
    if c0 = ';' then some (st, tc, nfail)
    else do
      let (nm, tcA) ← readFieldName text tc
      let (f3, s3, tcB) ← readTypeEnumKey text tcA
      let st1 ← stabEnumTouch st f3 s3
      let dtv ← stabEnumRead st1 f3 s3
      let (off, tcC) ← strtolF text (tcB + 1)
      let (sz, tcD) ← strtolF text (tcC + 1)
      match dtv with
      | some d => do
        let st2 ← addStructElement st1 curr nm (some d) off sz
        fieldLoop text curr fuel st2 (tcD + 1) nfail
      | none =>
        fieldLoop text curr fuel (pushLog st1 (.structFieldFailure nm)) (tcD + 1) (nfail + 1)

/-- Pass-2 cases `'s'`/`'u'`: read the byte size; if the node was already
sized (`DEBUG_SetStructSize` returned FALSE) skip towards the terminating
`';;'` pair without touching the node; otherwise run the member loop and,
if any member failed, reset this definition's slot to empty. -/
def structCase (st : StabState) (text : Str) (ci : Nat) (fOwn sOwn : Int) (curr : Option Nat) :
    Option (StabState × Str) := do
  let (size, tc0) ← strtolF text (ci + 2)
  let r ← setStructSize st curr size
  match r with
  | none => do
    let j ← structSkipScan text tc0
    let t' ← truncAfter text ci (j + 2) 1
    some (st, t')
  | some st1 => do
    let (st2, tcEnd, nfail) ← fieldLoop text curr (text.length + 2) st1 tc0 0
    let st3 ← if nfail = 0 then some st2 else stabEnumWrite st2 fOwn sOwn none
    let t' ← truncAfter text ci tcEnd 1
    some (st3, t')

/-- Enum member loop: parse `<name>:<value>,` groups until the terminating
`';'`, adding each member (with no type and size 0). -/
def enumLoop (text : Str) (curr : Option Nat) :
    Nat → StabState → Nat → Option (StabState × Nat)
  | 0, _, _ => none
  | fuel + 1, st, tc => do
    let c0 ← charAtF text tc
    if c0 = ';' then some (st, tc)
    else do
      let (nm, tcA) ← readFieldName text tc
      let (off, tcB) ← strtolF text tcA
      let st1 ← addStructElement st curr nm none off 0
      enumLoop text curr fuel st1 (tcB + 1)

/-- Pass-2 case `'e'`: run the enum member loop and truncate. -/
def enumCase (st : StabState) (text : Str) (ci : Nat) (curr : Option Nat) :
    Option (StabState × Str) := do
  let (st2, tcEnd) ← enumLoop text curr (text.length + 2) st (ci + 2)
  let t' ← truncAfter text ci tcEnd 1
  some (st2, t')

/-- One iteration of the pass-2 loop, at the rightmost remaining `'='`
(index `ci`): resolve the slot being defined, dispatch on the tag
character, and return the new state, truncated text, scratch list and
scratch index.  The `false` result is the unknown-tag `return FALSE` that
aborts the record. -/
def pass2Step (st : StabState) (text : Str) (ci : Nat) (ctypes : List (Option Nat)) (ntp : Int)
    (tn : Option Str) : Option (StabState × Str × List (Option Nat) × Int × Bool) := do
  let (fOwn, sOwn) ← readTypeEnumBwd text ((ci : Int) - 1)
  let st0 ← stabEnumTouch st fOwn sOwn
  let curr ← stabEnumRead st0 fOwn sOwn
  let tag := charAt text (ci + 1)
  if tag = 'x' then do
    let (st', t') ← xCase st0 text ci
    some (st', t', ctypes, ntp - 1, true)
  else if tag = '*' ∨ tag = 'f' then do
    let (st', t') ← ptrCase st0 text ci curr
    some (st', t', ctypes, ntp - 1, true)
  else if tag = '(' then do
    let (st', t', ct') ← crossCase st0 text ci fOwn sOwn curr ctypes ntp tn
    some (st', t', ct', ntp - 1, true)
  else if tag = '1' ∨ tag = 'r' then do
    let (st', t') ← basicCase st0 text ci
    some (st', t', ctypes, ntp - 1, true)
  else if tag = 'a' then do
    let (st', t') ← arrayCase st0 text ci curr
    some (st', t', ctypes, ntp - 1, true)
  else if tag = 's' ∨ tag = 'u' then do
    let (st', t') ← structCase st0 text ci fOwn sOwn curr
    some (st', t', ctypes, ntp - 1, true)
  else if tag = 'e' then do
    let (st', t') ← enumCase st0 text ci curr
    some (st', t', ctypes, ntp - 1, true)
  else
    some (pushLog st0 (.unknownType tag), text, ctypes, ntp, false)

/-- Pass 2 of `DEBUG_ParseTypedefStab`: repeatedly process the rightmost
remaining `'='` of the shrinking text (`strrchr` + truncation).  Fuel
bounds the iteration count; each step strictly shortens the text, so
`text.length + 1` initial fuel never runs out on a successful parse. -/
def pass2 (tn : Option Str) :
    Nat → StabState → Str → List (Option Nat) → Int →
    Option (StabState × Str × List (Option Nat) × Bool)
  | 0, _, _, _, _ => none
  | fuel + 1, st, text, ctypes, ntp =>
    match (eqIndices text).getLast? with
    | none => some (st, text, ctypes, true)
    | some ci =>
      match pass2Step st text ci ctypes ntp tn with
      | none => none
      | some (st', t', ct', ntp', true) => pass2 tn fuel st' t' ct' ntp'
      | some (st', t', ct', _, false) => some (st', t', ct', false)

/-- Embedding of `DEBUG_ParseTypedefStab(ptr, typename)`: first give the
dedup registry a chance (`DEBUG_HandlePreviousTypedef`); otherwise run the
two passes and register the scratch list under the declared name.  The
result carries the final state, the (destructively truncated) text, and
the TRUE/FALSE parse result. -/
def parseTypedefStab (st : StabState) (text : Str) (typename : Str) :
    Option (StabState × Str × Bool) :=
  match handlePreviousTypedef st typename text with
  | none => none
  | some (st1, true) => some (st1, text, true)
  | some (st1, false) =>
    match pass1 text st1 (eqIndices text) (some typename) [] with
    | none => none
    | some (st2, _, false) => some (st2, text, false)
    | some (st2, ctypes, true) =>
      let tn : Option Str := if eqIndices text = [] then some typename else none
      match pass2 tn (text.length + 1) st2 text ctypes ((ctypes.length : Int) - 1) with
      | none => none
      | some (st3, t3, _, false) => some (st3, t3, false)
      | some (st3, t3, ct3, true) => some (registerTypedef st3 typename ct3, t3, true)

/-- Index read by the continuation test `ptr[strlen(ptr) - 1]` of
`DEBUG_ParseStabs` for a record text (with `strlen` returning the
length). -/
def contTestIndex (s : Str) : Int := (s.length : Int) - 1

/-- The continuation test reads a position inside the record's own text. -/
def contTestReadsInText (s : Str) : Prop :=
  0 ≤ contTestIndex s ∧ contTestIndex s < (s.length : Int)

/-- Continuation test of the joiner: does the text end in the `'\\'`
marker?  For an empty text the C reads the byte before the start of the
text (`ptr[-1]`), which is outside the record's text: modelled as
`none`. -/
def recordEndsCont (s : Str) : Option Bool :=
  match s.getLast? with
  | none => none
  | some c => some (decide (c = '\\'))

/-- The record-stream joiner of `DEBUG_ParseStabs` (lines 811-834),
restricted to its text effect: a record ending in the continuation marker
is appended to the accumulation buffer with the marker dropped; otherwise
the buffer (if non-empty) is prepended to the record's text to form one
logical record, and the buffer is cleared (`stabbuff[0] = '\0'`) before
the next logical record begins.  An unfinished trailing buffer is
discarded with the end of the stream. -/
def joinRecords : List Str → Str → Option (List Str)
  | [], _ => some []
  | t :: ts, buf =>
    match recordEndsCont t with
    | none => none
    | some true => joinRecords ts (buf ++ t.dropLast)
    | some false =>
      let logical := if buf = [] then t else buf ++ t
      (joinRecords ts []).map (fun rest => logical :: rest)

/-- Specification-side join of a continuation run: concatenation of the
texts with each non-final trailing marker removed. -/
def stripJoin : List Str → Str
  | [] => []
  | [t] => t
  | t :: ts => t.dropLast ++ stripJoin ts

/-- The `N_SOL` update of `DEBUG_ParseStabs` (line 1052):
`in_external_file = !(subpath == NULL || strcmp(ptr, subpath) == 0)`,
where `subpath` is the primary source path remembered from the last
non-empty `N_SO` record (or NULL). -/
def solUpdate (subpath : Option Str) (text : Str) : Bool :=
  match subpath with
  | none => false
  | some sp => decide (¬ text = sp)

/-- Embedding of `DEBUG_FindInclude(file, val)`: index of the first
`include_defs` entry with the same value and name, or -1. -/
def findIncludeFrom (file : Str) (val : Int) : List IncludeDef → Int → Int
  | [], _ => -1
  | d :: rest, i =>
    if d.ivalue = val ∧ d.iname = file then i else findIncludeFrom file val rest (i + 1)

/-- Embedding of `DEBUG_FindInclude` proper. -/
def findInclude (defs : List IncludeDef) (file : Str) (val : Int) : Int :=
  findIncludeFrom file val defs 0

/-- Embedding of `DEBUG_CreateInclude(file, val)`: append a fresh entry
and return its index. -/
def createInclude (defs : List IncludeDef) (file : Str) (val : Int) : List IncludeDef × Nat :=
  (defs ++ [⟨file, val, []⟩], defs.length)

/-- Embedding of `DEBUG_AddInclude(idx)`: push the index onto the include
stack.  The `assert(cu_include_stk_idx < MAX_INCLUDES)` aborts when the
new depth would reach 256.  Note the pushed value is not validated. -/
def addInclude (stack : List Int) (idx : Int) : Option (List Int) :=
  if stack.length + 1 < 256 then some (stack ++ [idx]) else none

/-- The `N_EXCL` dispatcher action (line 1071):
`DEBUG_AddInclude(DEBUG_FindInclude(ptr, n_value))`. -/
def exclPush (defs : List IncludeDef) (stack : List Int) (file : Str) (val : Int) :
    Option (List Int) :=
  addInclude stack (findInclude defs file val)

/-- Components of the parser state that the typedef machinery never
changes (registry only grows via explicit registration, include stack and
include collection are untouched), together with monotone growth of the
node arena preserving the kinds of existing nodes. -/
def ParsePres (a b : StabState) : Prop :=
  b.registry = a.registry ∧ b.includeStack = a.includeStack ∧
  b.includeDefs.length = a.includeDefs.length ∧
  a.nodes.length ≤ b.nodes.length ∧
  ∀ i, i < a.nodes.length → (b.nodes[i]?).map (·.kind) = (a.nodes[i]?).map (·.kind)

/-- All state components except the diagnostic log agree. -/
def EqExceptLog (a b : StabState) : Prop :=
  b.registry = a.registry ∧ b.nodes = a.nodes ∧ b.cuVector = a.cuVector ∧
  b.includeDefs = a.includeDefs ∧ b.includeStack = a.includeStack

/-- The slot `(f, sub)` is addressable: reading (equivalently writing) it
neither aborts on the include-stack assertion nor indexes out of
bounds. -/
def slotOk (st : StabState) (f sub : Int) : Prop := (stabEnumRead st f sub).isSome = true

/-- Every sub-definition tag of the text is a known tag character. -/
def KnownTags (orig : Str) : Prop :=
  ∀ j, j < (eqIndices orig).length →
    expectOf (charAt orig ((eqIndices orig).getD j 0 + 1)) ≠ none

/-- Loop invariant of the pass-2 right-to-left loop, relating the mutated
text to the original record text: the text is an unconsumed prefix of the
original followed by `'='`-free residue of earlier truncations, the
remaining `'='` positions are exactly the first `m` original ones, and each
of them lies at least two characters inside the prefix. -/
def P2Inv (orig text : Str) (m : Nat) : Prop :=
  ∃ k r, k ≤ orig.length ∧ text = orig.take k ++ r ∧ (∀ c ∈ r, c ≠ '=') ∧
    eqIndices (orig.take k) = (eqIndices orig).take m ∧ m ≤ (eqIndices orig).length ∧
    ∀ j, j < m → (eqIndices orig).getD j 0 + 2 ≤ k

/-- What pass 1 guarantees about the `'='` position `i` and its scratch
entry `v`, as observed at a later state `stF`: the tag is known, and for
tags with an expected kind the entry holds a node of exactly that
kind (the `'('` wildcard promises nothing). -/
def posFact (text : Str) (i : Nat) (v : Option Nat) (stF : StabState) : Prop :=
  match expectOf (charAt text (i + 1)) with
  | none => False
  | some none => True
  | some (some k) => ∃ id, v = some id ∧ ((stF.nodes[id]?).map (fun n => n.kind)) = some k

/-- Default parse result used to extract concrete run results. -/
def noRes : StabState × Str × Bool := (initState, [], false)

/-- Record text of the C1 counterexample run: one sub-definition only. -/
def c1text : Str := "foo:t1=*2".data

/-- Declared name of the C1 counterexample typedef. -/
def c1name : Str := "foo".data

/-- State after the first successful parse of the C1 counterexample. -/
def c1st1 : StabState := ((parseTypedefStab initState c1text c1name).getD noRes).1

/-- Record text of the C1 witness run: two sub-definitions. -/
def c1wtext : Str := "ida:t1=*2=r1".data

/-- Declared name of the C1 witness typedef. -/
def c1wname : Str := "ida".data

/-- State after the first successful parse of the C1 witness. -/
def c1wst1 : StabState := ((parseTypedefStab initState c1wtext c1wname).getD noRes).1

/-- Truncated text left by the first C1 witness parse. -/
def c1wcut : Str := "ida:t1".data

/-- First record text of the C2 scenario (`typedef A` as pointer+basic). -/
def c2t1 : Str := "A:t1=*2=r1".data

/-- Second record text of the C2 scenario: same name `A`, different shape
(basic+basic). -/
def c2t2 : Str := "A:t3=r4=r5".data

/-- Name shared by both C2 records. -/
def c2name : Str := "A".data

/-- State after parsing the first C2 record. -/
def c2st1 : StabState := ((parseTypedefStab initState c2t1 c2name).getD noRes).1

/-- State after parsing the second C2 record (same name, new shape). -/
def c2st2 : StabState := ((parseTypedefStab c2st1 c2t2 c2name).getD noRes).1

/-- Truncated text left by the second C2 parse. -/
def c2cut : Str := "A:t3".data

/-- Record text of the single-sub-definition C2 scenario: same name `A`,
mismatching shape, but only one `'='`. -/
def c2t3 : Str := "A:t9=r4".data

/-- State after parsing the single-sub-definition C2 record. -/
def c2st3 : StabState := ((parseTypedefStab c2st1 c2t3 c2name).getD noRes).1

/-- Truncated text left by the single-sub-definition C2 parse. -/
def c2cut3 : Str := "A:t9".data

/-- Record text of the C3 counterexample (re-parsed in the same unit). -/
def c3text : Str := "qux:t1=*2".data

/-- Declared name of the C3 counterexample typedef. -/
def c3name : Str := "qux".data

/-- State after the first parse of the C3 counterexample record. -/
def c3st1 : StabState := ((parseTypedefStab initState c3text c3name).getD noRes).1

/-- State after re-parsing the same record text in the same unit. -/
def c3st2 : StabState := ((parseTypedefStab c3st1 c3text c3name).getD noRes).1

/-- State for the C3 witness: one basic node, slot (0,1) filled with it,
slot (0,2) also filled (so the cross-reference case takes its logging
branch and writes nothing). -/
def c3wst : StabState :=
  { initState with nodes := [{ kind := .DT_BASIC, nname := none }], cuVector := [none, some 0, some 0] }

/-- Record text whose only sub-definition is a cross-reference. -/
def c3wtext : Str := "w:t1=(0,2)".data

/-- Record text of the C4 scenario: one struct whose first member's type
reference (type number 9) resolves to no node while the second member's
(type number 1, the struct itself) does. -/
def c4text : Str := "foo:t1=s8x:9,0,32;y:1,32,32;;".data

/-- Declared name used by the C4 and C5 scenarios. -/
def fooName : Str := "foo".data

/-- Name of the basic node prefilled in the C6 scenario. -/
def intName : Str := "int".data

/-- State as pass 2 enters the struct case of the C4 scenario: pass 1 has
allocated the struct skeleton (node 0) into slot (0,1). -/
def c4st0 : StabState :=
  { initState with
    nodes := [{ kind := .DT_STRUCT, nname := some fooName }]
    cuVector := [none, some 0] }

/-- The C4 state after `DEBUG_SetStructSize` recorded size 8. -/
def c4st1 : StabState :=
  { c4st0 with nodes := [{ kind := .DT_STRUCT, nname := some fooName, structSize := some 8 }] }

/-- Record text of the C5 scenario: the same slot (0,1) is defined twice
(outer struct of size 8, inner struct of size 4 reached through member
`x`), so pass 2 revisits an already-sized node with two members left. -/
def c5text : Str := "foo:t1=s8x:1=s4a:1,0,32;;,0,32;y:1,32,32;;".data

/-- Full parse of the C5 record from the empty state. -/
def c5out : Option (StabState × Str × Bool) := parseTypedefStab initState c5text fooName

/-- Text pass 2 sees when it revisits the already-sized struct in the C5
run (after the inner definition was consumed and truncated away). -/
def c5text2 : Str := "foo:t1=s8x:1,0,32;y:1,32,32;;".data

/-- Start state of the C6 array scenario: a basic node in slot (0,5). -/
def c6st : StabState :=
  { initState with
    nodes := [{ kind := .DT_BASIC, nname := some intName }]
    cuVector := [none, none, none, none, none, some 0] }

/-- Record text of the spec's array scenario. -/
def c6text : Str := "bar:t6=ar1;0;9;5".data

/-- Declared name of the C6 array typedef. -/
def c6name : Str := "bar".data

/-- Record text of the negative-bound array scenario. -/
def c6negText : Str := "neg:t7=ar1;-1;10;5".data

/-- Declared name of the negative-bound array typedef. -/
def c6negName : Str := "neg".data

/-- Full parse of the spec's array scenario `bar:t6=ar1;0;9;5`. -/
def c6out : Option (StabState × Str × Bool) :=
  parseTypedefStab c6st c6text c6name

/-- Full parse of the negative-bound array `neg:t7=ar1;-1;10;5`. -/
def c6negOut : Option (StabState × Str × Bool) :=
  parseTypedefStab c6st c6negText c6negName

/-- First continuation record text of the C7 witness. -/
def c7a : Str := "ab\\".data

/-- Second continuation record text of the C7 witness. -/
def c7b : Str := "cd\\".data

/-- Final record text of the C7 witness run. -/
def c7c : Str := "ef".data

/-- Record text following the C7 witness run. -/
def c7d : Str := "gh".data

/-- Continuation run of the C7 witness: two marker-terminated texts and a
final plain one. -/
def c7run : List Str := [c7a, c7b, c7c]

/-- Records following the C7 witness run. -/
def c7rest : List Str := [c7d]

/-- Primary source path of the C8 counterexample. -/
def c8main : Str := "main.c".data

/-- Header name of the C9 scenarios. -/
def hhName : Str := "h.h".data

/-- Include collection of the C9 witness: one entry. -/
def c9defs : List IncludeDef := [⟨hhName, 42, []⟩]

/-- Text remaining after the C5 parse (the mis-cut tail is retained). -/
def c5finalText : Str := "foo:t1:1,32,32;;".data

/-- Member name `x` of the C4 scenario. -/
def xName : Str := "x".data

/-- Member name `y` of the C4 scenario. -/
def yName : Str := "y".data

/-- State after the member loop of the C4 scenario: member `y` added,
one failure logged for member `x`, tables grown by the resolution of the
unresolvable type number 9. -/
def c4st2 : StabState :=
  { nodes := [{ kind := .DT_STRUCT, nname := some fooName, structSize := some 8,
                fields := [⟨yName, some 0, 32, 32⟩] }]
    cuVector := [none, some 0, none, none, none, none, none, none, none, none]
    includeDefs := []
    includeStack := []
    registry := []
    log := [LogMsg.structFieldFailure xName] }

/-- Resulting state of the C3 witness step: only the diagnostic is new. -/
def c3wstepSt : StabState := pushLog c3wst LogMsg.unknownCondition

/-- Resulting text of the C3 witness step. -/
def c3wstepT : Str := "w:t1".data

/-- Helper for C9: when some entry of the collection matches, the linear
search of `DEBUG_FindInclude` stops inside the collection, so the result
lies between the start index and the end. -/
theorem findIncludeFrom_bounds (file : Str) (val : Int) :
    ∀ (defs : List IncludeDef) (i : Int), (∃ d ∈ defs, d.ivalue = val ∧ d.iname = file) →
      i ≤ findIncludeFrom file val defs i ∧
        findIncludeFrom file val defs i < i + (defs.length : Int) := by
  intro defs
  induction defs with
  | nil => intro i h; simp at h
  | cons d rest ih =>
    intro i h
    by_cases hd : d.ivalue = val ∧ d.iname = file
    · simp only [findIncludeFrom, if_pos hd, List.length_cons]
      constructor
      · exact le_refl i
      · have : (0 : Int) < ((rest.length + 1 : Nat) : Int) := by positivity
        omega
    · have hrest : ∃ d' ∈ rest, d'.ivalue = val ∧ d'.iname = file := by
        rcases h with ⟨d', hm, hp⟩
        rcases List.mem_cons.mp hm with h1 | h2
        · exact absurd (h1 ▸ hp) hd
        · exact ⟨d', h2, hp⟩
      have := ih (i + 1) hrest
      simp only [findIncludeFrom, if_neg hd, List.length_cons]
      push_cast
      push_cast at this
      omega

/-- C10 (code_bug): the claim says the continuation test of the joiner
reads only positions inside the record's text, and in particular treats an
empty text as a complete non-continued record without touching the byte at
index `length - 1 = -1`.  The code computes `ptr[strlen(ptr) - 1]`, which
for the empty text is the byte before the start of the text: the index is
-1, outside the text, and the joiner's behaviour on an empty record
depends on that out-of-bounds byte (the embedding reports the read). -/
theorem c10_empty_text_reads_before_buffer :
    contTestIndex [] = -1 ∧ ¬ contTestReadsInText [] ∧ recordEndsCont [] = none ∧
    joinRecords [[]] [] = none := by
  refine ⟨by decide, ?_, by decide, by decide⟩
  intro h
  rcases h with ⟨h1, _⟩
  simp [contTestIndex] at h1

/-- C8 counterexample: with the primary path set to `main.c`, an `N_SOL`
record with empty text sets the in-external-file flag to `true`, while the
claim says the flag is false whenever the text is empty. -/
theorem c8_counterexample :
    solUpdate (some c8main) [] = true ∧ ([] : Str) ≠ c8main := by decide

/-- C8 as amended: after an `N_SOL` record the flag is true exactly when a
primary path has been remembered and the record text differs from it; in
particular an empty text with a non-empty primary path yields true, and
the flag is false whenever no primary path is set or the text equals the
primary path. -/
theorem c8_amended (subpath : Option Str) (text : Str) :
    solUpdate subpath text = true ↔ ∃ sp, subpath = some sp ∧ text ≠ sp := by
  cases subpath with
  | none => simp [solUpdate]
  | some sp => simp [solUpdate]

/-- C9 counterexample: on an `N_EXCL` record whose (text, value) pair was
never created, `DEBUG_FindInclude` returns -1 and the dispatcher pushes it
onto the include stack unchecked — the "not found" result is pushed,
contrary to the claim. -/
theorem c9_counterexample :
    findInclude [] hhName 0 = -1 ∧ exclPush [] [] hhName 0 = some [-1] := by decide

/-- C9 as amended: when a matching `IncludeDef` exists, the index found is
a valid index into the collection and it is what the `N_EXCL` action
pushes; but nothing validates existence, and on a miss the -1 sentinel is
pushed (see the counterexample). -/
theorem c9_amended (defs : List IncludeDef) (stack : List Int) (file : Str) (val : Int)
    (hm : ∃ d ∈ defs, d.ivalue = val ∧ d.iname = file) (hd : stack.length + 1 < 256) :
    0 ≤ findInclude defs file val ∧ findInclude defs file val < (defs.length : Int) ∧
    exclPush defs stack file val = some (stack ++ [findInclude defs file val]) := by
  have h := findIncludeFrom_bounds file val defs 0 hm
  refine ⟨h.1, by simpa [findInclude] using h.2, ?_⟩
  simp [exclPush, addInclude, hd]

/-- C9 witness: the amended theorem applied to a one-entry collection. -/
theorem c9_witness :
    0 ≤ findInclude c9defs hhName 42 ∧ findInclude c9defs hhName 42 < (c9defs.length : Int) ∧
    exclPush c9defs [] hhName 42 = some ([] ++ [findInclude c9defs hhName 42]) :=
  c9_amended c9defs [] hhName 42 (by decide) (by decide)

/-- C6 (confirmed): parsing `bar:t6=ar1;0;9;5` binds slot (0,6) to an
Array node with bounds 0..9 whose element is the node held by slot (0,5),
and the bounds are parsed signed: `neg:t7=ar1;-1;10;5` keeps minimum -1. -/
theorem c6_array_parse :
    c6out.map (fun r => r.2.2) = some true ∧
    c6out.bind (fun r => stabEnumRead r.1 0 6) = some (some 1) ∧
    c6out.bind (fun r => r.1.nodes.get? 1) =
      some { kind := .DT_ARRAY, nname := none, arrMin := 0, arrMax := 9, arrElem := some 0 } ∧
    c6out.bind (fun r => stabEnumRead r.1 0 5) = some (some 0) ∧
    c6negOut.bind (fun r => (r.1.nodes.get? 1).map (fun n => (n.arrMin, n.arrMax))) =
      some (-1, 10) := by decide

/-- C5 (code_bug): when pass 2 revisits an already-sized struct node, the
skip scan `while (tc[0] != ';' && tc[1] != ';') tc++` stops at the first
`';'` boundary instead of the terminating `';;'`: on the revisited text of
the C5 run it stops at index 16 (the last digit of the first member's
size, the `';;'` pair being at 27-28), so the truncation keeps the tail
`:1,32,32;;` of the member list in the record text.  No members are
re-added (the revisited node keeps its single member), and parsing
continues, as the claim says — only the skip destination diverges. -/
theorem c5_skip_scan_stops_inside_member_list :
    c5out.map (fun r => r.2.2) = some true ∧
    c5out.map (fun r => r.2.1) = some c5finalText ∧
    c5out.bind (fun r => (r.1.nodes.get? 1).map (fun n => n.fields.length)) = some 1 ∧
    structSkipScan c5text2 9 = some 16 ∧
    charAt c5text2 27 = ';' ∧ charAt c5text2 28 = ';' ∧ (16 : Nat) < 27 := by decide

/-- Unfolding equation of `stripJoin` on a run of length at least two. -/
theorem stripJoin_cons₂ (a b : Str) (l : List Str) :
    stripJoin (a :: b :: l) = a.dropLast ++ stripJoin (b :: l) := rfl

/-- Helper for C7, generalized over the buffer contents accumulated so
far: a run whose first texts all end in the continuation marker and whose
last does not produces exactly one logical record — the buffer followed by
the marker-stripped concatenation — after which the buffer is cleared
(the remaining records are joined starting from the empty buffer). -/
theorem joinRecords_run_aux : ∀ (run : List Str) (buf : Str) (rest res : List Str),
    run ≠ [] → (∀ t ∈ run, t ≠ []) →
    (∀ t ∈ run.dropLast, t.getLast? = some '\\') →
    (∀ l, run.getLast? = some l → l.getLast? ≠ some '\\') →
    joinRecords rest [] = some res →
    joinRecords (run ++ rest) buf = some ((buf ++ stripJoin run) :: res) := by
  intro run
  induction run with
  | nil => intro buf rest res hne; exact absurd rfl hne
  | cons t ts ih =>
    intro buf rest res _ hall hcont hlast hrest
    cases ts with
    | nil =>
      have ht : t ≠ [] := hall t (by simp)
      have hl : t.getLast? ≠ some '\\' := hlast t (by simp)
      have hsome : t.getLast?.isSome := List.getLast?_isSome.mpr ht
      rcases Option.isSome_iff_exists.mp hsome with ⟨c, hc⟩
      have hcne : ¬ c = '\\' := fun h => hl (h ▸ hc)
      have hcond : recordEndsCont t = some false := by
        simp [recordEndsCont, hc, hcne]
      simp only [List.singleton_append, joinRecords, hcond, hrest, Option.map_some']
      by_cases hb : buf = [] <;> simp [hb, stripJoin, hrest]
    | cons b ts' =>
      have hm : t.getLast? = some '\\' := by
        apply hcont t
        simp [List.dropLast]
      have hcond : recordEndsCont t = some true := by simp [recordEndsCont, hm]
      have step : joinRecords ((t :: b :: ts') ++ rest) buf =
          joinRecords ((b :: ts') ++ rest) (buf ++ t.dropLast) := by
        simp only [List.cons_append, joinRecords, hcond]
      rw [step]
      have ihr := ih (buf ++ t.dropLast) rest res (by simp)
        (fun x hx => hall x (by simp [hx]))
        (fun x hx => hcont x (by simp [List.dropLast, hx]))
        (fun l hl => hlast l (by rw [List.getLast?_cons_cons]; exact hl))
        hrest
      rw [ihr, stripJoin_cons₂]
      simp [List.append_assoc]

/-- C7 (confirmed): a maximal run of records whose first k-1 texts end in
the continuation marker and whose k-th does not is joined into exactly one
logical record, the concatenation with the k-1 trailing markers removed,
and the accumulation buffer is cleared before the following records are
processed. -/
theorem c7_continuation_joining (run rest res : List Str)
    (hne : run ≠ []) (hall : ∀ t ∈ run, t ≠ [])
    (hcont : ∀ t ∈ run.dropLast, t.getLast? = some '\\')
    (hlast : ∀ l, run.getLast? = some l → l.getLast? ≠ some '\\')
    (hrest : joinRecords rest [] = some res) :
    joinRecords (run ++ rest) [] = some (stripJoin run :: res) := by
  simpa using joinRecords_run_aux run [] rest res hne hall hcont hlast hrest

/-- C7 witness: three records `ab\`, `cd\`, `ef` followed by a plain
record `gh` join into the logical records `abcdef` and `gh`. -/
theorem c7_witness :
    joinRecords (c7run ++ c7rest) [] = some (stripJoin c7run :: [c7d]) ∧
    stripJoin c7run = "abcdef".data ∧ c7run.dropLast = [c7a, c7b] := by
  refine ⟨c7_continuation_joining _ _ _ (by decide) (by decide) (by decide) ?_ (by decide),
    by decide, by decide⟩
  intro l hl
  have h2 : c7run.getLast? = some c7c := by decide
  rw [h2] at hl
  rw [← Option.some_inj.mp hl]
  decide

/-- Reading a replicate-of-empty padding gives the empty slot. -/
theorem getD_replicate_none (k m : Nat) :
    ((List.replicate (α := Option Nat) k none)[m]?).getD none = none := by
  rcases Nat.lt_or_ge m k with h | h
  · rw [List.getElem?_replicate_of_lt h]
    rfl
  · rw [List.getElem?_eq_none (by simpa using h)]
    rfl

/-- Zero-filling growth does not change the value read from any slot. -/
theorem ivecGrow_getD (v : List (Option Nat)) (n i : Nat) :
    ((ivecGrow v n)[i]?).getD none = (v[i]?).getD none := by
  unfold ivecGrow
  split_ifs with h
  · rcases Nat.lt_or_ge i v.length with hi | hi
    · rw [List.getElem?_append_left hi]
    · rw [List.getElem?_append_right hi, List.getElem?_eq_none hi, getD_replicate_none]
      rfl
  · rfl

/-- After growth the grown index is in range. -/
theorem ivecGrow_length (v : List (Option Nat)) (n : Nat) : n < (ivecGrow v n).length := by
  unfold ivecGrow
  split_ifs with h
  · simp only [List.length_append, List.length_replicate]
    omega
  · omega

/-- A successful table touch changes no slot value: growth only pads. -/
theorem stabEnumRead_touch (st st1 : StabState) (f sub : Int)
    (h : stabEnumTouch st f sub = some st1) :
    ∀ f' s', stabEnumRead st1 f' s' = stabEnumRead st f' s' := by
  intro f' s'
  by_cases hf : f = 0
  · by_cases hs : sub < 0
    · simp [stabEnumTouch, hf, hs] at h
    · simp only [stabEnumTouch, hf, if_true, if_pos, if_neg hs, Option.some_inj] at h
      subst h
      by_cases hf' : f' = 0
      · simp [stabEnumRead, hf', ivecGrow_getD]
      · simp [stabEnumRead, hf']
  · by_cases hfneg : f < 0
    · simp [stabEnumTouch, hf, hfneg] at h
    · by_cases hstk : st.includeStack.length < f.toNat
      · simp [stabEnumTouch, hf, hfneg, hstk] at h
      · rcases hidx : st.includeStack[f.toNat - 1]? with _ | idx
        · simp [stabEnumTouch, hf, hfneg, hstk, hidx] at h
        · by_cases hok : 0 ≤ idx ∧ idx.toNat < st.includeDefs.length
          · by_cases hs : sub < 0
            · simp [stabEnumTouch, hf, hfneg, hstk, hidx, hok, hs] at h
            · simp only [stabEnumTouch, hf, hfneg, hstk, hidx, hok.1, hok.2, hs, if_neg, if_pos,
                if_false, if_true, and_self, Option.some_inj] at h
              subst h
              by_cases hf' : f' = 0
              · simp [stabEnumRead, hf']
              · by_cases hfneg' : f' < 0
                · simp [stabEnumRead, hf', hfneg']
                · by_cases hstk' : st.includeStack.length < f'.toNat
                  · simp [stabEnumRead, hf', hfneg', hstk', List.length_set]
                  · rcases hidx' : st.includeStack[f'.toNat - 1]? with _ | idx'
                    · simp [stabEnumRead, hf', hfneg', hstk', hidx']
                    · by_cases hok' : 0 ≤ idx' ∧ idx'.toNat < st.includeDefs.length
                      · by_cases hs' : s' < 0
                        · simp [stabEnumRead, hf', hfneg', hstk', hidx', hs',
                            List.length_set, hok']
                        · by_cases heq : idx'.toNat = idx.toNat
                          · simp only [stabEnumRead, hf', hfneg', hstk', hidx', hs', heq,
                              if_neg, if_false, List.length_set, hok'.1, hok'.2, hok.2,
                              and_self, and_true, true_and, if_pos, if_true]
                            rw [List.getElem?_set_eq_of_lt _ hok.2]
                            rw [show st.includeDefs[idx.toNat]? = some st.includeDefs[idx.toNat] from
                              List.getElem?_eq_getElem hok.2]
                            simp [ivecGrow_getD]
                          · simp only [stabEnumRead, hf', hfneg', hstk', hidx', hs',
                              if_neg, if_false, List.length_set, hok'.1, hok'.2, and_self,
                              if_pos, if_true]
                            rw [List.getElem?_set_ne (fun hh => heq hh.symm)]
                      · simp [stabEnumRead, hf', hfneg', hstk', hidx', List.length_set, hok']
          · simp [stabEnumTouch, hf, hfneg, hstk, hidx, hok] at h

/-- A successful touch only grows a slot vector: every other state
component (and the include-collection length) is unchanged. -/
theorem stabEnumTouch_parts (st st1 : StabState) (f sub : Int)
    (h : stabEnumTouch st f sub = some st1) :
    st1.nodes = st.nodes ∧ st1.registry = st.registry ∧ st1.includeStack = st.includeStack ∧
    st1.includeDefs.length = st.includeDefs.length ∧ st1.log = st.log := by
  by_cases hf : f = 0
  · by_cases hs : sub < 0
    · simp [stabEnumTouch, hf, hs] at h
    · simp only [stabEnumTouch, hf, if_true, if_pos, if_neg hs, Option.some_inj] at h
      subst h
      simp
  · by_cases hfneg : f < 0
    · simp [stabEnumTouch, hf, hfneg] at h
    · by_cases hstk : st.includeStack.length < f.toNat
      · simp [stabEnumTouch, hf, hfneg, hstk] at h
      · rcases hidx : st.includeStack[f.toNat - 1]? with _ | idx
        · simp [stabEnumTouch, hf, hfneg, hstk, hidx] at h
        · by_cases hok : 0 ≤ idx ∧ idx.toNat < st.includeDefs.length
          · by_cases hs : sub < 0
            · simp [stabEnumTouch, hf, hfneg, hstk, hidx, hok, hs] at h
            · simp only [stabEnumTouch, hf, hfneg, hstk, hidx, hok.1, hok.2, hs, if_neg,
                if_pos, if_false, if_true, and_self, Option.some_inj] at h
              subst h
              simp [List.length_set]
          · simp [stabEnumTouch, hf, hfneg, hstk, hidx, hok] at h

/-- A successful slot write changes only a slot vector entry: every other
state component (and the include-collection length) is unchanged. -/
theorem stabEnumWrite_parts (st st1 : StabState) (f sub : Int) (v : Option Nat)
    (h : stabEnumWrite st f sub v = some st1) :
    st1.nodes = st.nodes ∧ st1.registry = st.registry ∧ st1.includeStack = st.includeStack ∧
    st1.includeDefs.length = st.includeDefs.length ∧ st1.log = st.log := by
  by_cases hf : f = 0
  · by_cases hs : sub < 0
    · simp [stabEnumWrite, hf, hs] at h
    · simp only [stabEnumWrite, hf, if_true, if_pos, if_neg hs, Option.some_inj] at h
      subst h
      simp
  · by_cases hfneg : f < 0
    · simp [stabEnumWrite, hf, hfneg] at h
    · by_cases hstk : st.includeStack.length < f.toNat
      · simp [stabEnumWrite, hf, hfneg, hstk] at h
      · rcases hidx : st.includeStack[f.toNat - 1]? with _ | idx
        · simp [stabEnumWrite, hf, hfneg, hstk, hidx] at h
        · by_cases hok : 0 ≤ idx ∧ idx.toNat < st.includeDefs.length
          · by_cases hs : sub < 0
            · simp [stabEnumWrite, hf, hfneg, hstk, hidx, hok, hs] at h
            · simp only [stabEnumWrite, hf, hfneg, hstk, hidx, hok.1, hok.2, hs, if_neg,
                if_pos, if_false, if_true, and_self, Option.some_inj] at h
              subst h
              simp [List.length_set]
          · simp [stabEnumWrite, hf, hfneg, hstk, hidx, hok] at h

/-- Reading back the slot just written yields the written value. -/
theorem stabEnumWrite_read_self (st st1 : StabState) (f sub : Int) (v : Option Nat)
    (h : stabEnumWrite st f sub v = some st1) :
    stabEnumRead st1 f sub = some v := by
  by_cases hf : f = 0
  · by_cases hs : sub < 0
    · simp [stabEnumWrite, hf, hs] at h
    · simp only [stabEnumWrite, hf, if_true, if_pos, if_neg hs, Option.some_inj] at h
      subst h
      simp only [stabEnumRead, hf, if_true, if_pos, if_neg hs]
      rw [List.getElem?_set_eq_of_lt _ (ivecGrow_length _ _)]
      rfl
  · by_cases hfneg : f < 0
    · simp [stabEnumWrite, hf, hfneg] at h
    · by_cases hstk : st.includeStack.length < f.toNat
      · simp [stabEnumWrite, hf, hfneg, hstk] at h
      · rcases hidx : st.includeStack[f.toNat - 1]? with _ | idx
        · simp [stabEnumWrite, hf, hfneg, hstk, hidx] at h
        · by_cases hok : 0 ≤ idx ∧ idx.toNat < st.includeDefs.length
          · by_cases hs : sub < 0
            · simp [stabEnumWrite, hf, hfneg, hstk, hidx, hok, hs] at h
            · simp only [stabEnumWrite, hf, hfneg, hstk, hidx, hok.1, hok.2, hs, if_neg,
                if_pos, if_false, if_true, and_self, Option.some_inj] at h
              subst h
              simp only [stabEnumRead, hf, hfneg, hstk, hidx, hs, if_neg, if_false,
                List.length_set, hok.1, hok.2, and_self, if_pos, if_true]
              rw [List.getElem?_set_eq_of_lt _ hok.2]
              simp only [Option.getD_some]
              rw [List.getElem?_set_eq_of_lt _ (ivecGrow_length _ _)]
              rfl
          · simp [stabEnumWrite, hf, hfneg, hstk, hidx, hok] at h

/-- Readability of a slot depends only on the include stack and the size
of the include collection. -/
theorem stabEnumRead_isSome_congr (a b : StabState) (f sub : Int)
    (hstk : b.includeStack = a.includeStack)
    (hlen : b.includeDefs.length = a.includeDefs.length) :
    (stabEnumRead a f sub).isSome = (stabEnumRead b f sub).isSome := by
  by_cases hf : f = 0
  · by_cases hs : sub < 0 <;> simp [stabEnumRead, hf, hs]
  · by_cases hfneg : f < 0
    · simp [stabEnumRead, hf, hfneg]
    · by_cases hstk' : a.includeStack.length < f.toNat
      · simp [stabEnumRead, hf, hfneg, hstk', hstk]
      · rcases hidx : a.includeStack[f.toNat - 1]? with _ | idx
        · simp [stabEnumRead, hf, hfneg, hstk', hstk, hidx]
        · by_cases hok : 0 ≤ idx ∧ idx.toNat < a.includeDefs.length
          · by_cases hs : sub < 0 <;>
              simp [stabEnumRead, hf, hfneg, hstk', hstk, hidx, hok, hlen, hs]
          · simp [stabEnumRead, hf, hfneg, hstk', hstk, hidx, hok, hlen]

/-- A write succeeds exactly when a read does: the guards coincide. -/
theorem stabEnumWrite_isSome (st : StabState) (f sub : Int) (v : Option Nat) :
    (stabEnumWrite st f sub v).isSome = (stabEnumRead st f sub).isSome := by
  by_cases hf : f = 0
  · by_cases hs : sub < 0 <;> simp [stabEnumWrite, stabEnumRead, hf, hs]
  · by_cases hfneg : f < 0
    · simp [stabEnumWrite, stabEnumRead, hf, hfneg]
    · by_cases hstk : st.includeStack.length < f.toNat
      · simp [stabEnumWrite, stabEnumRead, hf, hfneg, hstk]
      · rcases hidx : st.includeStack[f.toNat - 1]? with _ | idx
        · simp [stabEnumWrite, stabEnumRead, hf, hfneg, hstk, hidx]
        · by_cases hok : 0 ≤ idx ∧ idx.toNat < st.includeDefs.length
          · by_cases hs : sub < 0 <;>
              simp [stabEnumWrite, stabEnumRead, hf, hfneg, hstk, hidx, hok, hs]
          · simp [stabEnumWrite, stabEnumRead, hf, hfneg, hstk, hidx, hok]

/-- A touch succeeds exactly when a read does. -/
theorem stabEnumTouch_isSome (st : StabState) (f sub : Int) :
    (stabEnumTouch st f sub).isSome = (stabEnumRead st f sub).isSome := by
  by_cases hf : f = 0
  · by_cases hs : sub < 0 <;> simp [stabEnumTouch, stabEnumRead, hf, hs]
  · by_cases hfneg : f < 0
    · simp [stabEnumTouch, stabEnumRead, hf, hfneg]
    · by_cases hstk : st.includeStack.length < f.toNat
      · simp [stabEnumTouch, stabEnumRead, hf, hfneg, hstk]
      · rcases hidx : st.includeStack[f.toNat - 1]? with _ | idx
        · simp [stabEnumTouch, stabEnumRead, hf, hfneg, hstk, hidx]
        · by_cases hok : 0 ≤ idx ∧ idx.toNat < st.includeDefs.length
          · by_cases hs : sub < 0 <;>
              simp [stabEnumTouch, stabEnumRead, hf, hfneg, hstk, hidx, hok, hs]
          · simp [stabEnumTouch, stabEnumRead, hf, hfneg, hstk, hidx, hok]

/-- `ParsePres` is reflexive. -/
theorem ParsePres_refl (a : StabState) : ParsePres a a :=
  ⟨rfl, rfl, rfl, le_refl _, fun _ _ => rfl⟩

/-- `ParsePres` is transitive. -/
theorem ParsePres_trans {a b c : StabState} (h1 : ParsePres a b) (h2 : ParsePres b c) :
    ParsePres a c := by
  obtain ⟨r1, s1, d1, l1, k1⟩ := h1
  obtain ⟨r2, s2, d2, l2, k2⟩ := h2
  exact ⟨r2.trans r1, s2.trans s1, d2.trans d1, l1.trans l2,
    fun i hi => (k2 i (lt_of_lt_of_le hi l1)).trans (k1 i hi)⟩

/-- Appending a diagnostic preserves the parse invariants. -/
theorem ParsePres_pushLog (st : StabState) (m : LogMsg) : ParsePres st (pushLog st m) :=
  ⟨rfl, rfl, rfl, le_refl _, fun _ _ => rfl⟩

/-- Slot reads ignore the log. -/
theorem stabEnumRead_pushLog (st : StabState) (m : LogMsg) (f sub : Int) :
    stabEnumRead (pushLog st m) f sub = stabEnumRead st f sub := rfl

/-- A touch preserves the parse invariants. -/
theorem ParsePres_touch {st st1 : StabState} {f sub : Int}
    (h : stabEnumTouch st f sub = some st1) : ParsePres st st1 := by
  obtain ⟨hn, hr, hs, hd, _⟩ := stabEnumTouch_parts st st1 f sub h
  exact ⟨hr, hs, hd, le_of_eq (hn ▸ rfl), fun i _ => by rw [hn]⟩

/-- A slot write preserves the parse invariants. -/
theorem ParsePres_write {st st1 : StabState} {f sub : Int} {v : Option Nat}
    (h : stabEnumWrite st f sub v = some st1) : ParsePres st st1 := by
  obtain ⟨hn, hr, hs, hd, _⟩ := stabEnumWrite_parts st st1 f sub v h
  exact ⟨hr, hs, hd, le_of_eq (hn ▸ rfl), fun i _ => by rw [hn]⟩

/-- Allocating a fresh node preserves the parse invariants (the arena only
grows, existing kinds unchanged) and the new node has the requested kind. -/
theorem ParsePres_newDataType (st : StabState) (k : DebugType) (nm : Option Str) :
    ParsePres st (newDataType st k nm).1 ∧
    ((newDataType st k nm).1.nodes[(newDataType st k nm).2]?).map (·.kind) = some k := by
  constructor
  · refine ⟨rfl, rfl, rfl, by simp [newDataType], fun i hi => ?_⟩
    simp only [newDataType]
    rw [List.getElem?_append_left hi]
  · simp [newDataType]

/-- Updating one node's payload with a kind-preserving function keeps the
parse invariants. -/
theorem ParsePres_updNode (st : StabState) (id : Nat) (g : Node → Node)
    (hk : ∀ n, (g n).kind = n.kind) : ParsePres st (updNode st id g) := by
  refine ⟨rfl, rfl, rfl, by simp [updNode], fun i hi => ?_⟩
  simp only [updNode]
  by_cases hid : id < st.nodes.length
  · by_cases heq : i = id
    · subst heq
      rw [List.getElem?_set_eq_of_lt _ hid, List.getElem?_eq_getElem hid]
      simp only [Option.map_some']
      rw [List.getD_eq_getElem _ _ hid]
      simp [hk]
    · rw [List.getElem?_set_ne (fun hh => heq hh.symm)]
  · rw [List.set_eq_of_length_le (le_of_not_lt hid)]

/-- `DEBUG_SetPointerType` preserves the parse invariants. -/
theorem ParsePres_setPointerType {st st1 : StabState} {h : Option Nat} {t : Option Nat}
    (hs : setPointerType st h t = some st1) : ParsePres st st1 := by
  cases h with
  | none => simp [setPointerType] at hs
  | some id =>
    by_cases hid : id < st.nodes.length
    · simp only [setPointerType, if_pos hid, Option.some_inj] at hs
      subst hs
      exact ParsePres_updNode st id _ (fun n => rfl)
    · simp [setPointerType, hid] at hs

/-- `DEBUG_SetArrayParams` preserves the parse invariants. -/
theorem ParsePres_setArrayParams {st st1 : StabState} {h : Option Nat} {mn mx : Int}
    {e : Option Nat} (hs : setArrayParams st h mn mx e = some st1) : ParsePres st st1 := by
  cases h with
  | none => simp [setArrayParams] at hs
  | some id =>
    by_cases hid : id < st.nodes.length
    · simp only [setArrayParams, if_pos hid, Option.some_inj] at hs
      subst hs
      exact ParsePres_updNode st id _ (fun n => rfl)
    · simp [setArrayParams, hid] at hs

/-- The TRUE branch of `DEBUG_SetStructSize` preserves the parse
invariants. -/
theorem ParsePres_setStructSize {st st1 : StabState} {h : Option Nat} {sz : Int}
    (hs : setStructSize st h sz = some (some st1)) : ParsePres st st1 := by
  cases h with
  | none => simp [setStructSize] at hs
  | some id =>
    rcases hn : st.nodes[id]? with _ | n
    · simp [setStructSize, hn] at hs
    · by_cases hsz : n.structSize = none
      · simp only [setStructSize, hn, hsz, if_pos, if_true, Option.some_inj] at hs
        subst hs
        exact ParsePres_updNode st id _ (fun n => rfl)
      · simp [setStructSize, hn, hsz] at hs

/-- `DEBUG_AddStructElement` preserves the parse invariants. -/
theorem ParsePres_addStructElement {st st1 : StabState} {h : Option Nat} {nm : Str}
    {ty : Option Nat} {off sz : Int}
    (hs : addStructElement st h nm ty off sz = some st1) : ParsePres st st1 := by
  cases h with
  | none => simp [addStructElement] at hs
  | some id =>
    by_cases hid : id < st.nodes.length
    · simp only [addStructElement, if_pos hid, Option.some_inj] at hs
      subst hs
      exact ParsePres_updNode st id _ (fun n => rfl)
    · simp [addStructElement, hid] at hs

/-- Slot readability is transported along the parse invariants. -/
theorem slotOk_of_ParsePres {a b : StabState} (h : ParsePres a b) {f sub : Int}
    (hok : slotOk a f sub) : slotOk b f sub := by
  unfold slotOk at *
  rw [← stabEnumRead_isSome_congr a b f sub h.2.1 h.2.2.1]
  exact hok

/-- C3 as amended: the write-once discipline holds only for the
cross-reference aliasing step.  When the slot being defined by a `'('`
sub-definition already holds a node, the pass-2 step leaves that slot
unchanged (the code only logs its "Unknown condition" diagnostic); pass-1
skeleton allocation, dedup rebinding and malformed-struct handling, by
contrast, do overwrite (see the counterexample). -/
theorem c3_amended (st : StabState) (text : Str) (ci : Nat) (ctypes : List (Option Nat))
    (ntp : Int) (tn : Option Str) (f sub : Int) (n : Nat)
    (st' : StabState) (t' : Str) (ct' : List (Option Nat)) (ntp' : Int) (ok : Bool)
    (htag : charAt text (ci + 1) = '(')
    (hbwd : readTypeEnumBwd text ((ci : Int) - 1) = some (f, sub))
    (hcur : stabEnumRead st f sub = some (some n))
    (hstep : pass2Step st text ci ctypes ntp tn = some (st', t', ct', ntp', ok)) :
    stabEnumRead st' f sub = some (some n) := by
  unfold pass2Step at hstep
  rw [hbwd] at hstep
  simp only [Option.bind_eq_bind, Option.some_bind] at hstep
  rcases htouch : stabEnumTouch st f sub with _ | st0
  · rw [htouch] at hstep
    simp at hstep
  rw [htouch] at hstep
  simp only [Option.some_bind] at hstep
  have hc0 : stabEnumRead st0 f sub = some (some n) := by
    rw [stabEnumRead_touch st st0 f sub htouch]
    exact hcur
  rw [hc0] at hstep
  simp only [Option.some_bind] at hstep
  rw [htag] at hstep
  rw [if_neg (show ¬('(' : Char) = 'x' by decide),
    if_neg (show ¬(('(' : Char) = '*' ∨ ('(' : Char) = 'f') by decide),
    if_pos rfl] at hstep
  rcases hcc : crossCase st0 text ci f sub (some n) ctypes ntp tn with _ | ⟨stc, tc', ctc⟩
  · rw [hcc] at hstep
    simp at hstep
  rw [hcc] at hstep
  simp only [Option.some_bind, Option.some_inj] at hstep
  have hst' : st' = stc := by
    have := congrArg Prod.fst hstep
    simpa using this.symm
  subst hst'
  -- now compute the state produced by the cross-reference case
  unfold crossCase at hcc
  rcases hkey : readTypeEnumKey text (ci + 1) with _ | ⟨f2, s2, tcx⟩
  · rw [hkey] at hcc
    simp at hcc
  rw [hkey] at hcc
  simp only [Option.bind_eq_bind, Option.some_bind] at hcc
  rcases htouch2 : stabEnumTouch st0 f2 s2 with _ | st01
  · rw [htouch2] at hcc
    simp at hcc
  rw [htouch2] at hcc
  simp only [Option.some_bind] at hcc
  rcases hread2 : stabEnumRead st01 f2 s2 with _ | dtv
  · rw [hread2] at hcc
    simp at hcc
  rw [hread2] at hcc
  simp only [Option.some_bind] at hcc
  rcases htr : truncAfter text ci tcx 0 with _ | tt
  · rw [htr] at hcc
    simp at hcc
  rw [htr] at hcc
  simp only [Option.some_bind] at hcc
  rcases hnv : stabEnumRead (pushLog st01 LogMsg.unknownCondition) f sub with _ | nv
  · rw [hnv] at hcc
    simp at hcc
  rw [hnv] at hcc
  simp only [Option.some_bind] at hcc
  by_cases hguard : 0 ≤ ntp ∧ ntp < (ctypes.length : Int)
  · rw [if_pos hguard] at hcc
    simp only [Option.some_inj] at hcc
    have hq : st' = pushLog st01 LogMsg.unknownCondition := by
      have := congrArg Prod.fst hcc
      simpa using this.symm
    rw [hq, stabEnumRead_pushLog, stabEnumRead_touch st0 st01 f2 s2 htouch2]
    exact hc0
  · rw [if_neg hguard] at hcc
    exact absurd hcc (by simp)

/-- Adding a member does not touch the log. -/
theorem addStructElement_log {st st' : StabState} {h : Option Nat} {nm : Str}
    {ty : Option Nat} {off sz : Int}
    (hs : addStructElement st h nm ty off sz = some st') : st'.log = st.log := by
  cases h with
  | none => simp [addStructElement] at hs
  | some id =>
    by_cases hid : id < st.nodes.length
    · simp only [addStructElement, if_pos hid, Option.some_inj] at hs
      subst hs
      rfl
    · simp [addStructElement, hid] at hs

/-- Bookkeeping of the struct member loop: it only stops at the
terminating `';'`, preserves the parse invariants, and appends exactly one
diagnostic per member whose type reference held no node. -/
theorem fieldLoop_facts (text : Str) (curr : Option Nat) :
    ∀ fuel (st : StabState) tc nf st2 tcEnd nfail,
      fieldLoop text curr fuel st tc nf = some (st2, tcEnd, nfail) →
      st2.log.length + nf = st.log.length + nfail ∧
      charAtF text tcEnd = some ';' ∧ ParsePres st st2 ∧ nf ≤ nfail := by
  intro fuel
  induction fuel with
  | zero => intro st tc nf st2 tcEnd nfail h; simp [fieldLoop] at h
  | succ fuel ih =>
    intro st tc nf st2 tcEnd nfail h
    unfold fieldLoop at h
    rcases hc0 : charAtF text tc with _ | c0
    · rw [hc0] at h
      simp at h
    rw [hc0] at h
    simp only [Option.bind_eq_bind, Option.some_bind] at h
    by_cases hsemi : c0 = ';'
    · rw [if_pos hsemi] at h
      simp only [Option.some_inj, Prod.mk.injEq] at h
      obtain ⟨h1, h2, h3⟩ := h
      subst h1
      subst h2
      subst h3
      exact ⟨rfl, hsemi ▸ hc0, ParsePres_refl st, le_refl _⟩
    · rw [if_neg hsemi] at h
      rcases hnm : readFieldName text tc with _ | ⟨nm, tcA⟩
      · rw [hnm] at h
        simp at h
      rw [hnm] at h
      simp only [Option.some_bind] at h
      rcases hkey : readTypeEnumKey text tcA with _ | ⟨f3, s3, tcB⟩
      · rw [hkey] at h
        simp at h
      rw [hkey] at h
      simp only [Option.some_bind] at h
      rcases htch : stabEnumTouch st f3 s3 with _ | stt
      · rw [htch] at h
        simp at h
      rw [htch] at h
      simp only [Option.some_bind] at h
      rcases hrd : stabEnumRead stt f3 s3 with _ | dtv
      · rw [hrd] at h
        simp at h
      rw [hrd] at h
      simp only [Option.some_bind] at h
      rcases hofs : strtolF text (tcB + 1) with _ | ⟨off, tcC⟩
      · rw [hofs] at h
        simp at h
      rw [hofs] at h
      simp only [Option.some_bind] at h
      rcases hsz : strtolF text (tcC + 1) with _ | ⟨sz, tcD⟩
      · rw [hsz] at h
        simp at h
      rw [hsz] at h
      simp only [Option.some_bind] at h
      obtain ⟨hln, _, _, hdl, hlg⟩ := stabEnumTouch_parts st stt f3 s3 htch
      cases dtv with
      | some d =>
        simp only [] at h
        rcases hadd : addStructElement stt curr nm (some d) off sz with _ | sta
        · rw [hadd] at h
          simp at h
        rw [hadd] at h
        simp only [Option.some_bind] at h
        obtain ⟨e1, e2, e3, e4⟩ := ih sta (tcD + 1) nf st2 tcEnd nfail h
        refine ⟨?_, e2, ?_, e4⟩
        · rw [e1, addStructElement_log hadd, hlg]
        · exact ParsePres_trans (ParsePres_touch htch)
            (ParsePres_trans (ParsePres_addStructElement hadd) e3)
      | none =>
        simp only [] at h
        obtain ⟨e1, e2, e3, e4⟩ := ih (pushLog stt (.structFieldFailure nm)) (tcD + 1)
          (nf + 1) st2 tcEnd nfail h
        refine ⟨?_, e2, ?_, by omega⟩
        · have : (pushLog stt (.structFieldFailure nm)).log.length = st.log.length + 1 := by
            simp [pushLog, hlg]
          omega
        · exact ParsePres_trans (ParsePres_touch htch)
            (ParsePres_trans (ParsePres_pushLog stt _) e3)

/-- C4 (confirmed): when at least one member of a struct/union
sub-definition has a type reference holding no node, the struct case still
completes (the record is not aborted): the member loop runs to the
terminating `';'` (remaining members are still parsed), exactly one
diagnostic is appended per malformed member, and the definition's slot is
reset to empty afterwards. -/
theorem c4_malformed_field_handling (st : StabState) (text : Str) (ci : Nat)
    (fOwn sOwn : Int) (curr : Option Nat) (size : Int) (tc0 : Nat)
    (st1 st2 : StabState) (tcEnd nfail : Nat)
    (hsz : strtolF text (ci + 2) = some (size, tc0))
    (hset : setStructSize st curr size = some (some st1))
    (hloop : fieldLoop text curr (text.length + 2) st1 tc0 0 = some (st2, tcEnd, nfail))
    (hfail : 1 ≤ nfail)
    (hslot : slotOk st2 fOwn sOwn) :
    ∃ st3 t', structCase st text ci fOwn sOwn curr = some (st3, t') ∧
      stabEnumRead st3 fOwn sOwn = some none ∧
      st3.log.length = st1.log.length + nfail ∧
      charAtF text tcEnd = some ';' ∧ ParsePres st st3 := by
  obtain ⟨hlog, hsemi, hpres, _⟩ := fieldLoop_facts text curr _ st1 tc0 0 st2 tcEnd nfail hloop
  have hw : (stabEnumWrite st2 fOwn sOwn none).isSome = true := by
    rw [stabEnumWrite_isSome]
    exact hslot
  rcases hwr : stabEnumWrite st2 fOwn sOwn none with _ | st3
  · rw [hwr] at hw
    simp at hw
  have htr : truncAfter text ci tcEnd 1 =
      some (text.take ci ++ text.drop (tcEnd + 1)) := by
    unfold truncAfter
    rw [hsemi]
    simp only [Option.bind_eq_bind, Option.some_bind]
    rw [if_neg (by decide)]
  refine ⟨st3, text.take ci ++ text.drop (tcEnd + 1), ?_, ?_, ?_, hsemi, ?_⟩
  · unfold structCase
    rw [hsz]
    simp only [Option.bind_eq_bind, Option.some_bind]
    rw [hset]
    simp only [Option.some_bind]
    rw [hloop]
    simp only [Option.some_bind]
    rw [if_neg (by omega), hwr]
    simp only [Option.some_bind]
    rw [htr]
    simp only [Option.some_bind]
  · exact stabEnumWrite_read_self st2 st3 fOwn sOwn none hwr
  · obtain ⟨_, _, _, _, hl3⟩ := stabEnumWrite_parts st2 st3 fOwn sOwn none hwr
    rw [hl3]
    omega
  · exact ParsePres_trans (ParsePres_setStructSize hset)
      (ParsePres_trans hpres (ParsePres_write hwr))

/-- C4 witness: the theorem applied to the concrete struct record whose
member `x` has the unresolvable type number 9; the member loop still adds
the later member `y` (remaining members are parsed). -/
theorem c4_witness :
    (∃ st3 t', structCase c4st0 c4text 6 0 1 (some 0) = some (st3, t') ∧
      stabEnumRead st3 0 1 = some none ∧
      st3.log.length = c4st1.log.length + 1 ∧
      charAtF c4text 28 = some ';' ∧ ParsePres c4st0 st3) ∧
    (c4st2.nodes[0]?).map (·.fields) = some [⟨yName, some 0, 32, 32⟩] :=
  ⟨c4_malformed_field_handling c4st0 c4text 6 0 1 (some 0) 8 9 c4st1 c4st2 28 1
    (by decide) (by decide) (by decide) (by decide) (by rfl), by decide⟩

/-- C3 counterexample: re-parsing the same single-definition record in the
same compilation unit overwrites the filled slot (0,1) — it held node 0
and afterwards holds the freshly allocated node 1 — refuting the
write-once claim for pass-1 skeleton allocation. -/
theorem c3_counterexample :
    stabEnumRead c3st1 0 1 = some (some 0) ∧
    stabEnumRead c3st2 0 1 = some (some 1) ∧
    c3st2.nodes.length = c3st1.nodes.length + 1 := by decide

/-- C3 witness: the amended theorem applied to a cross-reference
sub-definition whose slot already holds node 0; the step leaves the slot
unchanged. -/
theorem c3_witness :
    stabEnumRead c3wstepSt 0 1 = some (some 0) :=
  c3_amended c3wst c3wtext 4 [some 0] 0 none 0 1 0 c3wstepSt c3wstepT [some 0] (-1) true
    (by decide) (by decide) (by decide) (by decide)

/-- C1 counterexample: for a typedef with exactly one sub-definition, a
successful first parse registers nothing, so the second occurrence makes
`DEBUG_HandlePreviousTypedef` report unseen (false, not true as claimed)
and the full re-parse allocates a fresh node. -/
theorem c1_counterexample :
    (parseTypedefStab initState c1text c1name).map (fun r => r.2.2) = some true ∧
    countEq c1text = 1 ∧
    handlePreviousTypedef c1st1 c1name c1text = some (c1st1, false) ∧
    (parseTypedefStab c1st1 c1text c1name).map (fun r => (r.1.nodes.length, r.2.2)) =
      some (c1st1.nodes.length + 1, true) := by decide

/-- C2 counterexample: after `typedef A` was registered with shape
(pointer, basic), a second `typedef A` of shape (basic, basic) is reported
unseen, parsed fresh — and then re-registered under the same name: the
registry's first match for `A` is now the new entry, not the original one,
refuting the "not re-registered / still maps to exactly the original
entry" part of the claim. -/
theorem c2_counterexample :
    (parseTypedefStab c2st1 c2t2 c2name).map (fun r => r.2.2) = some true ∧
    c2st1.registry.length = 1 ∧
    c2st2.registry.length = 2 ∧
    (c2st2.registry.find? (fun e => decide (e.ktname = c2name))).map (fun e => e.ktypes) ≠
      (c2st1.registry.find? (fun e => decide (e.ktname = c2name))).map (fun e => e.ktypes) ∧
    handlePreviousTypedef c2st1 c2name c2t2 = some (c2st1, false) := by decide

/-- The white-space skip never moves left. -/
theorem spacesEndGo_ge (s : Str) : ∀ f i, i ≤ spacesEndGo s f i := by
  intro f
  induction f with
  | zero => intro i; exact le_refl i
  | succ f ih =>
    intro i
    unfold spacesEndGo
    split_ifs with h
    · exact le_trans (Nat.le_succ i) (ih (i + 1))
    · exact le_refl i

/-- The digit scan never moves left. -/
theorem digitsEndGo_ge (s : Str) : ∀ f i, i ≤ digitsEndGo s f i := by
  intro f
  induction f with
  | zero => intro i; exact le_refl i
  | succ f ih =>
    intro i
    unfold digitsEndGo
    split_ifs with h
    · exact le_trans (Nat.le_succ i) (ih (i + 1))
    · exact le_refl i

/-- The white-space skip proper never moves left. -/
theorem spacesEnd_ge (s : Str) (i : Nat) : i ≤ spacesEnd s i := spacesEndGo_ge s _ i

/-- The digit scan proper never moves left. -/
theorem digitsEnd_ge (s : Str) (i : Nat) : i ≤ digitsEnd s i := digitsEndGo_ge s _ i

/-- `strtol` never returns a cursor left of its start. -/
theorem strtolAt_ge (s : Str) (i : Nat) : i ≤ (strtolAt s i).2 := by
  unfold strtolAt
  simp only []
  split_ifs <;>
    first
      | exact le_refl i
      | exact le_trans (spacesEnd_ge s i) (le_trans (Nat.le_succ _) (digitsEnd_ge s _))
      | exact le_trans (spacesEnd_ge s i) (digitsEnd_ge s _)

/-- Checked `strtol` never returns a cursor left of its start. -/
theorem strtolF_ge {s : Str} {i : Nat} {v : Int} {e : Nat}
    (h : strtolF s i = some (v, e)) : i ≤ e := by
  unfold strtolF at h
  split_ifs at h with hb
  · simp only [Option.some_inj] at h
    have := strtolAt_ge s i
    rw [h] at this
    exact this

/-- A successful forward character scan stops inside the string, at the
first occurrence, at or after the start. -/
theorem scanCharFwdGo_spec (s : Str) (t : Char) :
    ∀ f i j, scanCharFwdGo s t f i = some j → i ≤ j ∧ j < s.length ∧ charAt s j = t := by
  intro f
  induction f with
  | zero => intro i j h; simp [scanCharFwdGo] at h
  | succ f ih =>
    intro i j h
    unfold scanCharFwdGo at h
    split_ifs at h with h1 h2
    · simp only [Option.some_inj] at h
      subst h
      exact ⟨le_refl i, h1, h2⟩
    · obtain ⟨e1, e2, e3⟩ := ih (i + 1) j h
      exact ⟨le_trans (Nat.le_succ i) e1, e2, e3⟩

/-- Specification of `scanCharFwd`. -/
theorem scanCharFwd_spec {s : Str} {t : Char} {i j : Nat}
    (h : scanCharFwd s t i = some j) : i ≤ j ∧ j < s.length ∧ charAt s j = t :=
  scanCharFwdGo_spec s t _ i j h

/-- A forward type reference never moves the cursor left. -/
theorem readTypeEnumKey_ge {s : Str} {i : Nat} {f sub : Int} {e : Nat}
    (h : readTypeEnumKey s i = some (f, sub, e)) : i ≤ e := by
  unfold readTypeEnumKey at h
  rcases hc : charAtF s i with _ | c
  · rw [hc] at h
    simp at h
  rw [hc] at h
  simp only [Option.bind_eq_bind, Option.some_bind] at h
  split_ifs at h with hpar
  · rcases h1 : strtolF s (i + 1) with _ | ⟨v1, e1⟩
    · rw [h1] at h
      simp at h
    rw [h1] at h
    simp only [Option.some_bind] at h
    rcases h2 : strtolF s (e1 + 1) with _ | ⟨v2, e2⟩
    · rw [h2] at h
      simp at h
    rw [h2] at h
    simp only [Option.some_bind, Option.some_inj, Prod.mk.injEq] at h
    have g1 := strtolF_ge h1
    have g2 := strtolF_ge h2
    omega
  · rcases h1 : strtolF s i with _ | ⟨v1, e1⟩
    · rw [h1] at h
      simp at h
    rw [h1] at h
    simp only [Option.some_bind, Option.some_inj, Prod.mk.injEq] at h
    have g1 := strtolF_ge h1
    omega

/-- A member-name read advances the cursor past the colon. -/
theorem readFieldName_ge {s : Str} {i : Nat} {nm : Str} {e : Nat}
    (h : readFieldName s i = some (nm, e)) : i + 1 ≤ e := by
  unfold readFieldName at h
  rcases hj : scanCharFwd s ':' i with _ | j
  · rw [hj] at h
    simp at h
  rw [hj] at h
  simp only [Option.bind_eq_bind, Option.some_bind] at h
  split_ifs at h with hb
  simp only [Option.some_inj, Prod.mk.injEq] at h
  have := (scanCharFwd_spec hj).1
  omega

/-- A successful skip scan stops inside the string, at or after its
start. -/
theorem structSkipScanGo_spec (s : Str) :
    ∀ f i j, structSkipScanGo s f i = some j → i ≤ j ∧ j < s.length := by
  intro f
  induction f with
  | zero => intro i j h; simp [structSkipScanGo] at h
  | succ f ih =>
    intro i j h
    unfold structSkipScanGo at h
    split_ifs at h with h1 h2
    · simp only [Option.some_inj] at h
      subst h
      exact ⟨le_refl i, h1⟩
    · obtain ⟨e1, e2⟩ := ih (i + 1) j h
      exact ⟨le_trans (Nat.le_succ i) e1, e2⟩

/-- Specification of `structSkipScan`. -/
theorem structSkipScan_spec {s : Str} {i j : Nat}
    (h : structSkipScan s i = some j) : i ≤ j ∧ j < s.length :=
  structSkipScanGo_spec s _ i j h

/-- The member loop only moves the cursor right. -/
theorem fieldLoop_tc_ge (text : Str) (curr : Option Nat) :
    ∀ fuel (st : StabState) tc nf st2 tcEnd nfail,
      fieldLoop text curr fuel st tc nf = some (st2, tcEnd, nfail) → tc ≤ tcEnd := by
  intro fuel
  induction fuel with
  | zero => intro st tc nf st2 tcEnd nfail h; simp [fieldLoop] at h
  | succ fuel ih =>
    intro st tc nf st2 tcEnd nfail h
    unfold fieldLoop at h
    rcases hc0 : charAtF text tc with _ | c0
    · rw [hc0] at h
      simp at h
    rw [hc0] at h
    simp only [Option.bind_eq_bind, Option.some_bind] at h
    by_cases hsemi : c0 = ';'
    · rw [if_pos hsemi] at h
      simp only [Option.some_inj, Prod.mk.injEq] at h
      omega
    · rw [if_neg hsemi] at h
      rcases hnm : readFieldName text tc with _ | ⟨nm, tcA⟩
      · rw [hnm] at h
        simp at h
      rw [hnm] at h
      simp only [Option.some_bind] at h
      rcases hkey : readTypeEnumKey text tcA with _ | ⟨f3, s3, tcB⟩
      · rw [hkey] at h
        simp at h
      rw [hkey] at h
      simp only [Option.some_bind] at h
      rcases htch : stabEnumTouch st f3 s3 with _ | stt
      · rw [htch] at h
        simp at h
      rw [htch] at h
      simp only [Option.some_bind] at h
      rcases hrd : stabEnumRead stt f3 s3 with _ | dtv
      · rw [hrd] at h
        simp at h
      rw [hrd] at h
      simp only [Option.some_bind] at h
      rcases hofs : strtolF text (tcB + 1) with _ | ⟨off, tcC⟩
      · rw [hofs] at h
        simp at h
      rw [hofs] at h
      simp only [Option.some_bind] at h
      rcases hsz : strtolF text (tcC + 1) with _ | ⟨sz, tcD⟩
      · rw [hsz] at h
        simp at h
      rw [hsz] at h
      simp only [Option.some_bind] at h
      have gnm := readFieldName_ge hnm
      have gkey := readTypeEnumKey_ge hkey
      have gofs := strtolF_ge hofs
      have gsz := strtolF_ge hsz
      cases dtv with
      | some d =>
        simp only [] at h
        rcases hadd : addStructElement stt curr nm (some d) off sz with _ | sta
        · rw [hadd] at h
          simp at h
        rw [hadd] at h
        simp only [Option.some_bind] at h
        have := ih sta (tcD + 1) nf st2 tcEnd nfail h
        omega
      | none =>
        simp only [] at h
        have := ih (pushLog stt (.structFieldFailure nm)) (tcD + 1) (nf + 1) st2 tcEnd nfail h
        omega

/-- The enum member loop preserves the parse invariants and only moves
the cursor right. -/
theorem enumLoop_facts (text : Str) (curr : Option Nat) :
    ∀ fuel (st : StabState) tc st2 tcEnd,
      enumLoop text curr fuel st tc = some (st2, tcEnd) →
      ParsePres st st2 ∧ tc ≤ tcEnd ∧ charAtF text tcEnd = some ';' := by
  intro fuel
  induction fuel with
  | zero => intro st tc st2 tcEnd h; simp [enumLoop] at h
  | succ fuel ih =>
    intro st tc st2 tcEnd h
    unfold enumLoop at h
    rcases hc0 : charAtF text tc with _ | c0
    · rw [hc0] at h
      simp at h
    rw [hc0] at h
    simp only [Option.bind_eq_bind, Option.some_bind] at h
    by_cases hsemi : c0 = ';'
    · rw [if_pos hsemi] at h
      simp only [Option.some_inj, Prod.mk.injEq] at h
      obtain ⟨h1, h2⟩ := h
      subst h1
      subst h2
      exact ⟨ParsePres_refl st, le_refl _, hsemi ▸ hc0⟩
    · rw [if_neg hsemi] at h
      rcases hnm : readFieldName text tc with _ | ⟨nm, tcA⟩
      · rw [hnm] at h
        simp at h
      rw [hnm] at h
      simp only [Option.some_bind] at h
      rcases hofs : strtolF text tcA with _ | ⟨off, tcB⟩
      · rw [hofs] at h
        simp at h
      rw [hofs] at h
      simp only [Option.some_bind] at h
      rcases hadd : addStructElement st curr nm none off 0 with _ | sta
      · rw [hadd] at h
        simp at h
      rw [hadd] at h
      simp only [Option.some_bind] at h
      obtain ⟨e1, e2, e3⟩ := ih sta (tcB + 1) st2 tcEnd h
      have gnm := readFieldName_ge hnm
      have gofs := strtolF_ge hofs
      exact ⟨ParsePres_trans (ParsePres_addStructElement hadd) e1, by omega, e3⟩

/-- Every truncation writes the kept prefix followed by a tail of the old
text starting at or after the cursor. -/
theorem truncAfter_spec {text : Str} {ci tc skip : Nat} {t' : Str}
    (h : truncAfter text ci tc skip = some t') :
    ∃ d, tc ≤ d ∧ t' = text.take ci ++ text.drop d := by
  unfold truncAfter at h
  rcases hc : charAtF text tc with _ | c
  · rw [hc] at h
    simp at h
  rw [hc] at h
  simp only [Option.bind_eq_bind, Option.some_bind] at h
  split_ifs at h with hnul
  · simp only [Option.some_inj] at h
    refine ⟨text.length, ?_, ?_⟩
    · unfold charAtF at hc
      split_ifs at hc with hb
      exact hb
    · rw [← h, List.drop_length, List.append_nil]
  · simp only [Option.some_inj] at h
    exact ⟨tc + skip, Nat.le_add_right _ _, h.symm⟩

/-- Pass-2 case `'x'` leaves the state unchanged and truncates. -/
theorem xCase_spec {st st' : StabState} {text t' : Str} {ci : Nat}
    (h : xCase st text ci = some (st', t')) :
    st' = st ∧ ∃ d, ci + 1 ≤ d ∧ t' = text.take ci ++ text.drop d := by
  unfold xCase at h
  rcases hj : scanCharFwd text ':' (ci + 3) with _ | j
  · rw [hj] at h
    simp at h
  rw [hj] at h
  simp only [Option.bind_eq_bind, Option.some_bind] at h
  rcases htr : truncAfter text ci (j + 1) 0 with _ | tt
  · rw [htr] at h
    simp at h
  rw [htr] at h
  simp only [Option.some_bind, Option.some_inj, Prod.mk.injEq] at h
  obtain ⟨h1, h2⟩ := h
  obtain ⟨d, hd1, hd2⟩ := truncAfter_spec htr
  have := (scanCharFwd_spec hj).1
  exact ⟨h1.symm, d, by omega, h2 ▸ hd2⟩

/-- Pass-2 cases `'*'`/`'f'` preserve the parse invariants and truncate. -/
theorem ptrCase_spec {st st' : StabState} {text t' : Str} {ci : Nat} {curr : Option Nat}
    (h : ptrCase st text ci curr = some (st', t')) :
    ParsePres st st' ∧ ∃ d, ci + 1 ≤ d ∧ t' = text.take ci ++ text.drop d := by
  unfold ptrCase at h
  rcases hkey : readTypeEnumKey text (ci + 2) with _ | ⟨f2, s2, tc⟩
  · rw [hkey] at h
    simp at h
  rw [hkey] at h
  simp only [Option.bind_eq_bind, Option.some_bind] at h
  rcases htch : stabEnumTouch st f2 s2 with _ | st1
  · rw [htch] at h
    simp at h
  rw [htch] at h
  simp only [Option.some_bind] at h
  rcases hrd : stabEnumRead st1 f2 s2 with _ | dtv
  · rw [hrd] at h
    simp at h
  rw [hrd] at h
  simp only [Option.some_bind] at h
  rcases hsp : setPointerType st1 curr dtv with _ | st2
  · rw [hsp] at h
    simp at h
  rw [hsp] at h
  simp only [Option.some_bind] at h
  rcases htr : truncAfter text ci tc 0 with _ | tt
  · rw [htr] at h
    simp at h
  rw [htr] at h
  simp only [Option.some_bind, Option.some_inj, Prod.mk.injEq] at h
  obtain ⟨h1, h2⟩ := h
  obtain ⟨d, hd1, hd2⟩ := truncAfter_spec htr
  have hge := readTypeEnumKey_ge hkey
  refine ⟨h1 ▸ ParsePres_trans (ParsePres_touch htch) (ParsePres_setPointerType hsp),
    d, by omega, h2 ▸ hd2⟩

/-- Pass-2 case `'('` preserves the parse invariants, truncates, and
writes the scratch list only at the in-range index `ntp`. -/
theorem crossCase_spec {st st' : StabState} {text t' : Str} {ci : Nat} {fOwn sOwn : Int}
    {curr : Option Nat} {ctypes ct' : List (Option Nat)} {ntp : Int} {tn : Option Str}
    (h : crossCase st text ci fOwn sOwn curr ctypes ntp tn = some (st', t', ct')) :
    ParsePres st st' ∧ (∃ d, ci + 1 ≤ d ∧ t' = text.take ci ++ text.drop d) ∧
    0 ≤ ntp ∧ ntp < (ctypes.length : Int) ∧ ∃ v, ct' = ctypes.set ntp.toNat v := by
  unfold crossCase at h
  rcases hkey : readTypeEnumKey text (ci + 1) with _ | ⟨f2, s2, tc⟩
  · rw [hkey] at h
    simp at h
  rw [hkey] at h
  simp only [Option.bind_eq_bind, Option.some_bind] at h
  rcases htch : stabEnumTouch st f2 s2 with _ | st1
  · rw [htch] at h
    simp at h
  rw [htch] at h
  simp only [Option.some_bind] at h
  rcases hrd : stabEnumRead st1 f2 s2 with _ | dtv
  · rw [hrd] at h
    simp at h
  rw [hrd] at h
  simp only [Option.some_bind] at h
  have hp1 : ParsePres st st1 := ParsePres_touch htch
  have hge := readTypeEnumKey_ge hkey
  -- common endgame, once the state after the aliasing branch is known
  have tail : ∀ st2 : StabState, ParsePres st1 st2 →
      ((truncAfter text ci tc 0).bind fun tt =>
        (stabEnumRead st2 fOwn sOwn).bind fun nv =>
          if 0 ≤ ntp ∧ ntp < (ctypes.length : Int) then some (st2, tt, ctypes.set ntp.toNat nv)
          else none) = some (st', t', ct') →
      ParsePres st st' ∧ (∃ d, ci + 1 ≤ d ∧ t' = text.take ci ++ text.drop d) ∧
      0 ≤ ntp ∧ ntp < (ctypes.length : Int) ∧ ∃ v, ct' = ctypes.set ntp.toNat v := by
    intro st2 hp2 hh
    rcases htr : truncAfter text ci tc 0 with _ | tt
    · rw [htr] at hh
      simp at hh
    rw [htr] at hh
    simp only [Option.some_bind] at hh
    rcases hnv : stabEnumRead st2 fOwn sOwn with _ | nv
    · rw [hnv] at hh
      simp at hh
    rw [hnv] at hh
    simp only [Option.some_bind] at hh
    split_ifs at hh with hguard
    · simp only [Option.some_inj, Prod.mk.injEq] at hh
      obtain ⟨h1, h2, h3⟩ := hh
      obtain ⟨d, hd1, hd2⟩ := truncAfter_spec htr
      exact ⟨h1 ▸ ParsePres_trans hp1 hp2, ⟨d, by omega, h2 ▸ hd2⟩,
        hguard.1, hguard.2, nv, h3.symm⟩
  cases curr with
  | some cv =>
    simp only [] at h
    exact tail (pushLog st1 .unknownCondition) (ParsePres_pushLog st1 _) h
  | none =>
    cases dtv with
    | some n =>
      simp only [] at h
      rcases hw : stabEnumWrite st1 fOwn sOwn (some n) with _ | st2
      · rw [hw] at h
        simp at h
      rw [hw] at h
      simp only [Option.some_bind] at h
      exact tail st2 (ParsePres_write hw) h
    | none =>
      simp only [] at h
      rcases hw1 : stabEnumWrite (newDataType st1 .DT_BASIC tn).1 f2 s2
          (some (newDataType st1 .DT_BASIC tn).2) with _ | stb
      · rw [hw1] at h
        simp at h
      rw [hw1] at h
      simp only [Option.some_bind] at h
      rcases hw2 : stabEnumWrite stb fOwn sOwn (some (newDataType st1 .DT_BASIC tn).2)
          with _ | st2
      · rw [hw2] at h
        simp at h
      rw [hw2] at h
      simp only [Option.some_bind] at h
      exact tail st2 (ParsePres_trans (ParsePres_newDataType st1 .DT_BASIC tn).1
        (ParsePres_trans (ParsePres_write hw1) (ParsePres_write hw2))) h

/-- Pass-2 case `'a'` preserves the parse invariants and truncates. -/
theorem arrayCase_spec {st st' : StabState} {text t' : Str} {ci : Nat} {curr : Option Nat}
    (h : arrayCase st text ci curr = some (st', t')) :
    ParsePres st st' ∧ ∃ d, ci + 1 ≤ d ∧ t' = text.take ci ++ text.drop d := by
  unfold arrayCase at h
  rcases hk1 : readTypeEnumKey text (ci + 3) with _ | ⟨fA, sA, tc1⟩
  · rw [hk1] at h
    simp at h
  rw [hk1] at h
  simp only [Option.bind_eq_bind, Option.some_bind] at h
  rcases ht1 : stabEnumTouch st fA sA with _ | st1
  · rw [ht1] at h
    simp at h
  rw [ht1] at h
  simp only [Option.some_bind] at h
  rcases hs1 : strtolF text (tc1 + 1) with _ | ⟨mn, tc2⟩
  · rw [hs1] at h
    simp at h
  rw [hs1] at h
  simp only [Option.some_bind] at h
  rcases hs2 : strtolF text (tc2 + 1) with _ | ⟨mx, tc3⟩
  · rw [hs2] at h
    simp at h
  rw [hs2] at h
  simp only [Option.some_bind] at h
  rcases hk2 : readTypeEnumKey text (tc3 + 1) with _ | ⟨fE, sE, tc4⟩
  · rw [hk2] at h
    simp at h
  rw [hk2] at h
  simp only [Option.some_bind] at h
  rcases ht2 : stabEnumTouch st1 fE sE with _ | st2
  · rw [ht2] at h
    simp at h
  rw [ht2] at h
  simp only [Option.some_bind] at h
  rcases hrd : stabEnumRead st2 fE sE with _ | dtv
  · rw [hrd] at h
    simp at h
  rw [hrd] at h
  simp only [Option.some_bind] at h
  rcases htr : truncAfter text ci tc4 0 with _ | tt
  · rw [htr] at h
    simp at h
  rw [htr] at h
  simp only [Option.some_bind] at h
  rcases hsa : setArrayParams st2 curr mn mx dtv with _ | st3
  · rw [hsa] at h
    simp at h
  rw [hsa] at h
  simp only [Option.some_bind, Option.some_inj, Prod.mk.injEq] at h
  obtain ⟨h1, h2⟩ := h
  obtain ⟨d, hd1, hd2⟩ := truncAfter_spec htr
  have g1 := readTypeEnumKey_ge hk1
  have g2 := strtolF_ge hs1
  have g3 := strtolF_ge hs2
  have g4 := readTypeEnumKey_ge hk2
  refine ⟨h1 ▸ ParsePres_trans (ParsePres_touch ht1)
    (ParsePres_trans (ParsePres_touch ht2) (ParsePres_setArrayParams hsa)),
    d, by omega, h2 ▸ hd2⟩

/-- Pass-2 cases `'s'`/`'u'` preserve the parse invariants and truncate. -/
theorem structCase_spec {st st' : StabState} {text t' : Str} {ci : Nat} {fOwn sOwn : Int}
    {curr : Option Nat} (h : structCase st text ci fOwn sOwn curr = some (st', t')) :
    ParsePres st st' ∧ ∃ d, ci + 1 ≤ d ∧ t' = text.take ci ++ text.drop d := by
  unfold structCase at h
  rcases hsz : strtolF text (ci + 2) with _ | ⟨size, tc0⟩
  · rw [hsz] at h
    simp at h
  rw [hsz] at h
  simp only [Option.bind_eq_bind, Option.some_bind] at h
  rcases hset : setStructSize st curr size with _ | r
  · rw [hset] at h
    simp at h
  rw [hset] at h
  simp only [Option.some_bind] at h
  have g0 := strtolF_ge hsz
  cases r with
  | none =>
    simp only [] at h
    rcases hj : structSkipScan text tc0 with _ | j
    · rw [hj] at h
      simp at h
    rw [hj] at h
    simp only [Option.some_bind] at h
    rcases htr : truncAfter text ci (j + 2) 1 with _ | tt
    · rw [htr] at h
      simp at h
    rw [htr] at h
    simp only [Option.some_bind, Option.some_inj, Prod.mk.injEq] at h
    obtain ⟨h1, h2⟩ := h
    obtain ⟨d, hd1, hd2⟩ := truncAfter_spec htr
    have gskip := (structSkipScan_spec hj).1
    exact ⟨h1 ▸ ParsePres_refl st, d, by omega, h2 ▸ hd2⟩
  | some st1 =>
    simp only [] at h
    rcases hfl : fieldLoop text curr (text.length + 2) st1 tc0 0 with _ | ⟨st2, tcEnd, nfail⟩
    · rw [hfl] at h
      simp at h
    rw [hfl] at h
    simp only [Option.some_bind] at h
    have hflf := fieldLoop_facts text curr _ st1 tc0 0 st2 tcEnd nfail hfl
    have hgtc := fieldLoop_tc_ge text curr _ st1 tc0 0 st2 tcEnd nfail hfl
    have tail : ∀ st3 : StabState, ParsePres st2 st3 →
        ((truncAfter text ci tcEnd 1).bind fun tt => some (st3, tt)) = some (st', t') →
        ParsePres st st' ∧ ∃ d, ci + 1 ≤ d ∧ t' = text.take ci ++ text.drop d := by
      intro st3 hp23 hh
      rcases htr : truncAfter text ci tcEnd 1 with _ | tt
      · rw [htr] at hh
        simp at hh
      rw [htr] at hh
      simp only [Option.some_bind, Option.some_inj, Prod.mk.injEq] at hh
      obtain ⟨h1, h2⟩ := hh
      obtain ⟨d, hd1, hd2⟩ := truncAfter_spec htr
      exact ⟨h1 ▸ ParsePres_trans (ParsePres_setStructSize hset)
        (ParsePres_trans hflf.2.2.1 hp23), d, by omega, h2 ▸ hd2⟩
    by_cases hz : nfail = 0
    · rw [if_pos hz] at h
      exact tail st2 (ParsePres_refl st2) h
    · rw [if_neg hz] at h
      rcases hwr : stabEnumWrite st2 fOwn sOwn none with _ | st3
      · rw [hwr] at h
        simp at h
      rw [hwr] at h
      simp only [Option.some_bind] at h
      exact tail st3 (ParsePres_write hwr) h

/-- Pass-2 case `'e'` preserves the parse invariants and truncates. -/
theorem enumCase_spec {st st' : StabState} {text t' : Str} {ci : Nat} {curr : Option Nat}
    (h : enumCase st text ci curr = some (st', t')) :
    ParsePres st st' ∧ ∃ d, ci + 1 ≤ d ∧ t' = text.take ci ++ text.drop d := by
  unfold enumCase at h
  rcases hel : enumLoop text curr (text.length + 2) st (ci + 2) with _ | ⟨st2, tcEnd⟩
  · rw [hel] at h
    simp at h
  rw [hel] at h
  simp only [Option.bind_eq_bind, Option.some_bind] at h
  rcases htr : truncAfter text ci tcEnd 1 with _ | tt
  · rw [htr] at h
    simp at h
  rw [htr] at h
  simp only [Option.some_bind, Option.some_inj, Prod.mk.injEq] at h
  obtain ⟨h1, h2⟩ := h
  obtain ⟨d, hd1, hd2⟩ := truncAfter_spec htr
  obtain ⟨e1, e2, _⟩ := enumLoop_facts text curr _ st (ci + 2) st2 tcEnd hel
  exact ⟨h1 ▸ e1, d, by omega, h2 ▸ hd2⟩

/-- One successful, non-aborting pass-2 step preserves the parse
invariants, decrements the scratch index by one, rewrites the text as the
prefix before the consumed `'='` plus a tail starting strictly after it,
and changes the scratch list at most at index `ntp`, only when the
consumed tag is `'('`. -/
theorem pass2Step_spec {st st' : StabState} {text t' : Str} {ci : Nat}
    {ctypes ct' : List (Option Nat)} {ntp ntp' : Int} {tn : Option Str}
    (hci : ci < text.length)
    (h : pass2Step st text ci ctypes ntp tn = some (st', t', ct', ntp', true)) :
    ParsePres st st' ∧ ntp' = ntp - 1 ∧
    (∃ d, ci + 1 ≤ d ∧ t' = text.take ci ++ text.drop d) ∧
    (ct' = ctypes ∨ (charAt text (ci + 1) = '(' ∧ 0 ≤ ntp ∧ ntp < (ctypes.length : Int) ∧
      ∃ v, ct' = ctypes.set ntp.toNat v)) := by
  unfold pass2Step at h
  rcases hbwd : readTypeEnumBwd text ((ci : Int) - 1) with _ | ⟨fOwn, sOwn⟩
  · rw [hbwd] at h
    simp at h
  rw [hbwd] at h
  simp only [Option.bind_eq_bind, Option.some_bind] at h
  rcases htch : stabEnumTouch st fOwn sOwn with _ | st0
  · rw [htch] at h
    simp at h
  rw [htch] at h
  simp only [Option.some_bind] at h
  rcases hrd : stabEnumRead st0 fOwn sOwn with _ | curr
  · rw [hrd] at h
    simp at h
  rw [hrd] at h
  simp only [Option.some_bind] at h
  have hp0 : ParsePres st st0 := ParsePres_touch htch
  by_cases h1 : charAt text (ci + 1) = 'x'
  · rw [if_pos h1] at h
    rcases hx : xCase st0 text ci with _ | ⟨stx, tx⟩
    · rw [hx] at h
      simp at h
    rw [hx] at h
    simp only [Option.some_bind, Option.some_inj, Prod.mk.injEq] at h
    obtain ⟨e1, e2, e3, e4, _⟩ := h
    obtain ⟨hxa, d, hd1, hd2⟩ := xCase_spec hx
    exact ⟨e1 ▸ hxa ▸ hp0, e4.symm, ⟨d, hd1, e2 ▸ hd2⟩, Or.inl e3.symm⟩
  rw [if_neg h1] at h
  by_cases h2 : charAt text (ci + 1) = '*' ∨ charAt text (ci + 1) = 'f'
  · rw [if_pos h2] at h
    rcases hx : ptrCase st0 text ci curr with _ | ⟨stx, tx⟩
    · rw [hx] at h
      simp at h
    rw [hx] at h
    simp only [Option.some_bind, Option.some_inj, Prod.mk.injEq] at h
    obtain ⟨e1, e2, e3, e4, _⟩ := h
    obtain ⟨hpres, d, hd1, hd2⟩ := ptrCase_spec hx
    exact ⟨e1 ▸ ParsePres_trans hp0 hpres, e4.symm, ⟨d, hd1, e2 ▸ hd2⟩, Or.inl e3.symm⟩
  rw [if_neg h2] at h
  by_cases h3 : charAt text (ci + 1) = '('
  · rw [if_pos h3] at h
    rcases hx : crossCase st0 text ci fOwn sOwn curr ctypes ntp tn with _ | ⟨stx, tx, ctx⟩
    · rw [hx] at h
      simp at h
    rw [hx] at h
    simp only [Option.some_bind, Option.some_inj, Prod.mk.injEq] at h
    obtain ⟨e1, e2, e3, e4, _⟩ := h
    obtain ⟨hpres, ⟨d, hd1, hd2⟩, g1, g2, v, hv⟩ := crossCase_spec hx
    exact ⟨e1 ▸ ParsePres_trans hp0 hpres, e4.symm, ⟨d, hd1, e2 ▸ hd2⟩,
      Or.inr ⟨h3, g1, g2, v, e3 ▸ hv⟩⟩
  rw [if_neg h3] at h
  by_cases h4 : charAt text (ci + 1) = '1' ∨ charAt text (ci + 1) = 'r'
  · rw [if_pos h4] at h
    simp only [basicCase, Option.some_bind, Option.some_inj, Prod.mk.injEq] at h
    obtain ⟨e1, e2, e3, e4, _⟩ := h
    refine ⟨e1 ▸ hp0, e4.symm, ⟨text.length, by omega, ?_⟩, Or.inl e3.symm⟩
    rw [← e2, List.drop_length, List.append_nil]
  rw [if_neg h4] at h
  by_cases h5 : charAt text (ci + 1) = 'a'
  · rw [if_pos h5] at h
    rcases hx : arrayCase st0 text ci curr with _ | ⟨stx, tx⟩
    · rw [hx] at h
      simp at h
    rw [hx] at h
    simp only [Option.some_bind, Option.some_inj, Prod.mk.injEq] at h
    obtain ⟨e1, e2, e3, e4, _⟩ := h
    obtain ⟨hpres, d, hd1, hd2⟩ := arrayCase_spec hx
    exact ⟨e1 ▸ ParsePres_trans hp0 hpres, e4.symm, ⟨d, hd1, e2 ▸ hd2⟩, Or.inl e3.symm⟩
  rw [if_neg h5] at h
  by_cases h6 : charAt text (ci + 1) = 's' ∨ charAt text (ci + 1) = 'u'
  · rw [if_pos h6] at h
    rcases hx : structCase st0 text ci fOwn sOwn curr with _ | ⟨stx, tx⟩
    · rw [hx] at h
      simp at h
    rw [hx] at h
    simp only [Option.some_bind, Option.some_inj, Prod.mk.injEq] at h
    obtain ⟨e1, e2, e3, e4, _⟩ := h
    obtain ⟨hpres, d, hd1, hd2⟩ := structCase_spec hx
    exact ⟨e1 ▸ ParsePres_trans hp0 hpres, e4.symm, ⟨d, hd1, e2 ▸ hd2⟩, Or.inl e3.symm⟩
  rw [if_neg h6] at h
  by_cases h7 : charAt text (ci + 1) = 'e'
  · rw [if_pos h7] at h
    rcases hx : enumCase st0 text ci curr with _ | ⟨stx, tx⟩
    · rw [hx] at h
      simp at h
    rw [hx] at h
    simp only [Option.some_bind, Option.some_inj, Prod.mk.injEq] at h
    obtain ⟨e1, e2, e3, e4, _⟩ := h
    obtain ⟨hpres, d, hd1, hd2⟩ := enumCase_spec hx
    exact ⟨e1 ▸ ParsePres_trans hp0 hpres, e4.symm, ⟨d, hd1, e2 ▸ hd2⟩, Or.inl e3.symm⟩
  rw [if_neg h7] at h
  simp only [Option.some_inj, Prod.mk.injEq] at h
  exact absurd h.2.2.2.2 (by simp)

/-- The shape-comparison loop only ever logs: every other state component
is untouched, whatever its verdict. -/
theorem shapeCheck_eqLog (ktypes : List (Option Nat)) (text : Str) :
    ∀ (l : List Nat) (st : StabState) (count : Nat) (st1 : StabState) (b : Bool),
      shapeCheck ktypes text st l count = some (st1, b) → EqExceptLog st st1 := by
  intro l
  induction l with
  | nil =>
    intro st count st1 b h
    simp only [shapeCheck, Option.some_inj, Prod.mk.injEq] at h
    rw [← h.1]
    exact ⟨rfl, rfl, rfl, rfl, rfl⟩
  | cons i rest ih =>
    intro st count st1 b h
    simp only [shapeCheck] at h
    by_cases hle : ktypes.length ≤ count
    · rw [if_pos hle] at h
      simp only [Option.some_inj, Prod.mk.injEq] at h
      rw [← h.1]
      exact ⟨rfl, rfl, rfl, rfl, rfl⟩
    · rw [if_neg hle] at h
      rcases hex : expectOf (charAt text (i + 1)) with _ | _ | k
      · rw [hex] at h
        simp only [Option.some_inj, Prod.mk.injEq] at h
        rw [← h.1]
        exact ⟨rfl, rfl, rfl, rfl, rfl⟩
      · rw [hex] at h
        exact ih st (count + 1) st1 b h
      · rw [hex] at h
        rcases hg : getTypeK st (ktypes.getD count none) with _ | k2
        · rw [hg] at h
          simp at h
        · rw [hg] at h
          simp only [] at h
          by_cases hk : k = k2
          · rw [if_pos hk] at h
            exact ih st (count + 1) st1 b h
          · rw [if_neg hk] at h
            simp only [Option.some_inj, Prod.mk.injEq] at h
            rw [← h.1]
            exact ⟨rfl, rfl, rfl, rfl, rfl⟩

/-- When the registry lookup reports "unseen" (name absent, or shape
mismatch), the state is unchanged except for possible diagnostics: in
particular the registry, the cached entry included, and every type slot
are exactly as before. -/
theorem handlePreviousTypedef_false_eqLog {st st1 : StabState} {name text : Str}
    (h : handlePreviousTypedef st name text = some (st1, false)) : EqExceptLog st st1 := by
  unfold handlePreviousTypedef at h
  rcases hf : st.registry.find? (fun e => decide (e.ktname = name)) with _ | ktd
  · rw [hf] at h
    simp only [Option.some_inj, Prod.mk.injEq] at h
    rw [← h.1]
    exact ⟨rfl, rfl, rfl, rfl, rfl⟩
  · rw [hf] at h
    simp only [] at h
    rcases hs : shapeCheck ktd.ktypes text st (eqIndices text) 0 with _ | ⟨stx, b⟩
    · rw [hs] at h
      simp at h
    · rw [hs] at h
      cases b
      · simp only [] at h
        simp only [Option.some_inj, Prod.mk.injEq] at h
        rw [← h.1]
        exact shapeCheck_eqLog ktd.ktypes text (eqIndices text) st 0 stx false hs
      · simp only [] at h
        rcases hr : rebindLoop text ktd.ktypes stx (eqIndices text) 0 with _ | st2
        · rw [hr] at h
          simp at h
        · rw [hr] at h
          simp at h

/-- Pass 1 preserves the parse invariants, and on success appends exactly
one scratch entry per `'='` position processed. -/
theorem pass1_pres (text : Str) :
    ∀ (l : List Nat) (st : StabState) (tn : Option Str) (acc : List (Option Nat))
      (st2 : StabState) (acc2 : List (Option Nat)) (b : Bool),
      pass1 text st l tn acc = some (st2, acc2, b) →
      ParsePres st st2 ∧ (b = true → acc2.length = acc.length + l.length) := by
  intro l
  induction l with
  | nil =>
    intro st tn acc st2 acc2 b h
    simp only [pass1, Option.some_inj, Prod.mk.injEq] at h
    obtain ⟨e1, e2, _⟩ := h
    exact ⟨e1 ▸ ParsePres_refl st, fun _ => by rw [← e2]; simp⟩
  | cons i rest ih =>
    intro st tn acc st2 acc2 b h
    simp only [pass1, Option.bind_eq_bind] at h
    rcases hbwd : readTypeEnumBwd text ((i : Int) - 1) with _ | ⟨f, sub⟩
    · rw [hbwd] at h
      simp at h
    rw [hbwd] at h
    simp only [Option.some_bind] at h
    rcases ht : stabEnumTouch st f sub with _ | st1
    · rw [ht] at h
      simp at h
    rw [ht] at h
    simp only [Option.some_bind] at h
    have hp1 : ParsePres st st1 := ParsePres_touch ht
    rcases hsk : skelOf text i tn with _ | _ | _ | ⟨k, nm⟩
    · rw [hsk] at h
      simp at h
    · rw [hsk] at h
      simp only [Option.some_inj, Prod.mk.injEq] at h
      obtain ⟨e1, _, e3⟩ := h
      exact ⟨e1 ▸ ParsePres_trans hp1 (ParsePres_pushLog st1 _),
        fun hb => absurd (e3.trans hb) (by simp)⟩
    · rw [hsk] at h
      obtain ⟨hp2, hlen⟩ := ih st1 none (acc ++ [none]) st2 acc2 b h
      refine ⟨ParsePres_trans hp1 hp2, fun hb => ?_⟩
      have := hlen hb
      simp only [List.length_append, List.length_singleton, List.length_cons, List.length_nil] at this ⊢
      omega
    · rw [hsk] at h
      simp only [] at h
      rcases hnd : newDataType st1 k nm with ⟨stA, id⟩
      rw [hnd] at h
      simp only [] at h
      rcases hw : stabEnumWrite stA f sub (some id) with _ | stB
      · rw [hw] at h
        simp at h
      rw [hw] at h
      simp only [Option.some_bind] at h
      obtain ⟨hp2, hlen⟩ := ih stB none (acc ++ [some id]) st2 acc2 b h
      have hpA : ParsePres st1 stA := by
        have hh := (ParsePres_newDataType st1 k nm).1
        rw [hnd] at hh
        exact hh
      refine ⟨ParsePres_trans hp1 (ParsePres_trans hpA
        (ParsePres_trans (ParsePres_write hw) hp2)), fun hb => ?_⟩
      have := hlen hb
      simp only [List.length_append, List.length_singleton, List.length_cons, List.length_nil] at this ⊢
      omega

/-- The last element of a list is a member. -/
theorem getLastMem : ∀ {l : List Nat} {a : Nat}, l.getLast? = some a → a ∈ l := by
  intro l
  induction l with
  | nil =>
    intro a h
    simp at h
  | cons x xs ih =>
    intro a h
    cases xs with
    | nil =>
      simp only [List.getLast?_singleton, Option.some_inj] at h
      simp [h]
    | cons y ys =>
      rw [List.getLast?_cons_cons] at h
      exact List.mem_cons_of_mem x (ih h)

/-- Every `'='` position lies inside the string. -/
theorem eqIndices_mem_lt {s : Str} {i : Nat} (h : i ∈ eqIndices s) : i < s.length := by
  unfold eqIndices at h
  exact List.mem_range.mp (List.mem_of_mem_filter h)

/-- A successful pass-2 run preserves the parse invariants, and the
scratch list keeps its length (only in-range `set`s happen). -/
theorem pass2_facts (tn : Option Str) :
    ∀ (fuel : Nat) (st : StabState) (text : Str) (ctypes : List (Option Nat)) (ntp : Int)
      (st' : StabState) (t' : Str) (ct' : List (Option Nat)),
      pass2 tn fuel st text ctypes ntp = some (st', t', ct', true) →
      ParsePres st st' ∧ ct'.length = ctypes.length := by
  intro fuel
  induction fuel with
  | zero =>
    intro st text ctypes ntp st' t' ct' h
    simp [pass2] at h
  | succ n ih =>
    intro st text ctypes ntp st' t' ct' h
    simp only [pass2] at h
    rcases hlast : (eqIndices text).getLast? with _ | ci
    · rw [hlast] at h
      simp only [Option.some_inj, Prod.mk.injEq] at h
      obtain ⟨e1, _, e3, _⟩ := h
      exact ⟨e1 ▸ ParsePres_refl st, by rw [← e3]⟩
    · rw [hlast] at h
      simp only [] at h
      rcases hstep : pass2Step st text ci ctypes ntp tn with _ | ⟨stm, tm, ctm, ntpm, b⟩
      · rw [hstep] at h
        simp at h
      · rw [hstep] at h
        cases b
        · simp only [] at h
          simp only [Option.some_inj, Prod.mk.injEq] at h
          exact absurd h.2.2.2 (by simp)
        · simp only [] at h
          have hci : ci < text.length := eqIndices_mem_lt (getLastMem hlast)
          obtain ⟨hp1, _, _, hct⟩ := pass2Step_spec hci hstep
          obtain ⟨hp2, hlen⟩ := ih stm tm ctm ntpm st' t' ct' h
          refine ⟨ParsePres_trans hp1 hp2, ?_⟩
          rcases hct with hct | ⟨_, _, _, v, hct⟩
          · rw [hlen, hct]
          · rw [hlen, hct, List.length_set]

/-- C2 as amended: a registry lookup that reports "unseen" (in particular
on a shape mismatch with the cached entry) leaves the registry and the
cached entry untouched and the full parse runs fresh.  What happens to the
registry then depends on the sub-definition count of the new record: with
exactly one `'='` the re-registration is skipped (`ndef == 1`), so the
registry — and its first match for the name, the original cached entry —
is exactly as before, as the original claim said; with any other count
the fresh definition IS re-registered under the same name: the new entry
is prepended, so afterwards the registry's first match for the name is
the new entry rather than the original cached one (which survives,
shadowed, behind it). -/
theorem c2_amended (st st1 st' : StabState) (name text t' : Str)
    (hprev : handlePreviousTypedef st name text = some (st1, false))
    (hrun : parseTypedefStab st text name = some (st', t', true)) :
    (countEq text = 1 → st'.registry = st.registry ∧
      st'.registry.find? (fun x => decide (x.ktname = name)) =
        st.registry.find? (fun x => decide (x.ktname = name))) ∧
    (¬ countEq text = 1 →
      ∃ e : KnownTypedef, e.ktname = name ∧ e.ktypes.length = countEq text ∧
        st'.registry = e :: st.registry ∧
        st'.registry.find? (fun x => decide (x.ktname = name)) = some e) := by
  unfold parseTypedefStab at hrun
  rw [hprev] at hrun
  simp only [] at hrun
  rcases hp1 : pass1 text st1 (eqIndices text) (some name) [] with _ | ⟨st2, acc, b1⟩
  · rw [hp1] at hrun
    simp at hrun
  rw [hp1] at hrun
  cases b1
  · simp only [] at hrun
    simp only [Option.some_inj, Prod.mk.injEq] at hrun
    exact absurd hrun.2.2 (by simp)
  simp only [] at hrun
  rcases hp2 : pass2 (if eqIndices text = [] then some name else none) (text.length + 1)
      st2 text acc ((acc.length : Int) - 1) with _ | ⟨st3, t3, ct3, b2⟩
  · rw [hp2] at hrun
    simp at hrun
  rw [hp2] at hrun
  cases b2
  · simp only [] at hrun
    simp only [Option.some_inj, Prod.mk.injEq] at hrun
    exact absurd hrun.2.2 (by simp)
  simp only [] at hrun
  simp only [Option.some_inj, Prod.mk.injEq] at hrun
  obtain ⟨e1, _, _⟩ := hrun
  obtain ⟨hpp1, hl1⟩ := pass1_pres text (eqIndices text) st1 (some name) [] st2 acc true hp1
  obtain ⟨hpp2, hl2⟩ := pass2_facts _ _ _ _ _ _ _ _ _ hp2
  have hlen : ct3.length = countEq text := by
    rw [hl2, hl1 rfl]
    simp [countEq]
  have hreg3 : st3.registry = st.registry := by
    rw [hpp2.1, hpp1.1, (handlePreviousTypedef_false_eqLog hprev).1]
  refine ⟨?_, ?_⟩
  · intro h1
    have hct1 : ct3.length = 1 := by
      rw [hlen]
      exact h1
    have hregS : st'.registry = st.registry := by
      rw [← e1]
      unfold registerTypedef
      rw [if_pos hct1]
      exact hreg3
    exact ⟨hregS, by rw [hregS]⟩
  · intro h1
    have hne : ¬ ct3.length = 1 := by
      rw [hlen]
      exact h1
    refine ⟨⟨name, ct3⟩, rfl, hlen, ?_, ?_⟩
    · rw [← e1]
      unfold registerTypedef
      rw [if_neg hne, hreg3]
    · rw [← e1]
      unfold registerTypedef
      rw [if_neg hne]
      simp [List.find?]

/-- C2 witness, both regimes: the two-sub-definition mismatch (`A` cached
as pointer+basic, re-declared as basic+basic) re-registers `A` and the new
entry shadows the surviving original; the one-sub-definition mismatch
(`A:t9=r4`) is parsed fresh but not re-registered, leaving the registry —
and its first match for `A` — exactly as before. -/
theorem c2_witness :
    (¬ countEq c2t2 = 1 ∧
      ∃ e : KnownTypedef, e.ktname = c2name ∧ e.ktypes.length = countEq c2t2 ∧
        c2st2.registry = e :: c2st1.registry ∧
        c2st2.registry.find? (fun x => decide (x.ktname = c2name)) = some e) ∧
    (countEq c2t3 = 1 ∧ c2st3.registry = c2st1.registry ∧
      c2st3.registry.find? (fun x => decide (x.ktname = c2name)) =
        c2st1.registry.find? (fun x => decide (x.ktname = c2name))) :=
  ⟨⟨by decide,
      (c2_amended c2st1 c2st1 c2st2 c2name c2t2 c2cut (by decide) (by decide)).2 (by decide)⟩,
    ⟨by decide,
      (c2_amended c2st1 c2st1 c2st3 c2name c2t3 c2cut3 (by decide) (by decide)).1 (by decide)⟩⟩

/-- Membership in the `'='` index list. -/
theorem eqIndices_mem_iff {s : Str} {i : Nat} :
    i ∈ eqIndices s ↔ i < s.length ∧ charAt s i = '=' := by
  unfold eqIndices
  rw [List.mem_filter, List.mem_range]
  simp

/-- The `'='` positions are listed in strictly increasing order. -/
theorem eqIndices_pairwise (s : Str) : (eqIndices s).Pairwise (· < ·) :=
  List.Pairwise.sublist (List.filter_sublist _) (List.pairwise_lt_range s.length)

/-- Strictly sorted lists with the same members are equal. -/
theorem sorted_eq_of_mem_iff : ∀ {a b : List Nat}, a.Pairwise (· < ·) →
    b.Pairwise (· < ·) → (∀ x, x ∈ a ↔ x ∈ b) → a = b := by
  intro a
  induction a with
  | nil =>
    intro b _ _ hm
    cases b with
    | nil => rfl
    | cons y t => exact absurd ((hm y).mpr (List.mem_cons_self y t)) (List.not_mem_nil y)
  | cons x t ih =>
    intro b h1 hb hm
    cases b with
    | nil => exact absurd ((hm x).mp (List.mem_cons_self x t)) (List.not_mem_nil x)
    | cons y t2 =>
      obtain ⟨hx, hp1⟩ := List.pairwise_cons.mp h1
      obtain ⟨hy, hp2⟩ := List.pairwise_cons.mp hb
      have hxy : x = y := by
        rcases List.mem_cons.mp ((hm x).mp (List.mem_cons_self x t)) with h | h
        · exact h
        · rcases List.mem_cons.mp ((hm y).mpr (List.mem_cons_self y t2)) with h2 | h2
          · exact h2.symm
          · exact absurd (lt_trans (hy x h) (hx y h2)) (lt_irrefl y)
      subst hxy
      congr 1
      apply ih hp1 hp2
      intro z
      constructor
      · intro hz
        rcases List.mem_cons.mp ((hm z).mp (List.mem_cons_of_mem x hz)) with h | h
        · exact absurd (h ▸ hx z hz) (lt_irrefl x)
        · exact h
      · intro hz
        rcases List.mem_cons.mp ((hm z).mpr (List.mem_cons_of_mem x hz)) with h | h
        · exact absurd (h ▸ hy z hz) (lt_irrefl x)
        · exact h

/-- The default-0 read of a valid index is a member. -/
theorem getD_mem_of_lt {l : List Nat} {m : Nat} (h : m < l.length) : l.getD m 0 ∈ l := by
  rw [List.getD_eq_getElem l 0 h]
  exact List.getElem_mem h

/-- In a strictly sorted list, the prefix of length `m` holds exactly the
members below the `m`-th element. -/
theorem mem_take_sorted : ∀ {l : List Nat} {m : Nat}, l.Pairwise (· < ·) → m < l.length →
    ∀ x, (x ∈ l.take m ↔ x ∈ l ∧ x < l.getD m 0) := by
  intro l
  induction l with
  | nil =>
    intro m _ hm
    simp at hm
  | cons a t ih =>
    intro m hp hm x
    obtain ⟨ha, hp2⟩ := List.pairwise_cons.mp hp
    cases m with
    | zero =>
      simp only [List.take_zero, List.getD_cons_zero]
      constructor
      · intro h
        exact absurd h (List.not_mem_nil x)
      · rintro ⟨hxm, hlt⟩
        rcases List.mem_cons.mp hxm with h | h
        · exact absurd (h ▸ hlt) (lt_irrefl a)
        · exact absurd hlt (not_lt_of_gt (ha x h))
    | succ m2 =>
      have hm2 : m2 < t.length := by simpa using hm
      have hga : a < t.getD m2 0 := ha _ (getD_mem_of_lt hm2)
      simp only [List.take_succ_cons, List.getD_cons_succ]
      rw [List.mem_cons, List.mem_cons, ih hp2 hm2 x]
      constructor
      · rintro (h | ⟨hx, hlt⟩)
        · exact ⟨Or.inl h, h ▸ hga⟩
        · exact ⟨Or.inr hx, hlt⟩
      · rintro ⟨h | h, hlt⟩
        · exact Or.inl h
        · exact Or.inr ⟨h, hlt⟩

/-- Reading inside the taken prefix agrees with the original string. -/
theorem charAt_take {s : Str} {k p : Nat} (h : p < k) : charAt (s.take k) p = charAt s p := by
  unfold charAt
  rw [List.getD_eq_getElem?_getD, List.getD_eq_getElem?_getD, List.getElem?_take, if_pos h]

/-- Reading inside the left part of an append agrees with it. -/
theorem charAt_append_left {a r : Str} {p : Nat} (h : p < a.length) :
    charAt (a ++ r) p = charAt a p := List.getD_append a r NUL p h

/-- Reading below `k` in a truncated-and-patched text agrees with the
original. -/
theorem charAt_prefix {orig r : Str} {k p : Nat} (hk : k ≤ orig.length) (hp : p < k) :
    charAt (orig.take k ++ r) p = charAt orig p := by
  rw [charAt_append_left (by simp only [List.length_take]; omega), charAt_take hp]

/-- `'='` positions of a prefix are the original ones below the cut. -/
theorem mem_eqIndices_take {s : Str} {k x : Nat} :
    x ∈ eqIndices (s.take k) ↔ x < k ∧ x ∈ eqIndices s := by
  rw [eqIndices_mem_iff, eqIndices_mem_iff]
  constructor
  · rintro ⟨hl, hc⟩
    simp only [List.length_take] at hl
    have hxk : x < k := by omega
    have hxs : x < s.length := by omega
    exact ⟨hxk, hxs, by rw [← charAt_take hxk]; exact hc⟩
  · rintro ⟨hxk, hl, hc⟩
    refine ⟨by simp only [List.length_take]; omega, ?_⟩
    rw [charAt_take hxk]
    exact hc

/-- Appending `'='`-free residue adds no `'='` positions. -/
theorem eqIndices_append_noeq {a r : Str} (hr : ∀ c ∈ r, c ≠ '=') :
    eqIndices (a ++ r) = eqIndices a := by
  apply sorted_eq_of_mem_iff (eqIndices_pairwise _) (eqIndices_pairwise _)
  intro x
  rw [eqIndices_mem_iff, eqIndices_mem_iff]
  constructor
  · rintro ⟨hl, hc⟩
    by_cases hx : x < a.length
    · exact ⟨hx, by rw [← charAt_append_left hx]; exact hc⟩
    · exfalso
      push_neg at hx
      have hre : charAt (a ++ r) x = charAt r (x - a.length) := by
        unfold charAt
        exact List.getD_append_right a r NUL x hx
      rw [hre] at hc
      have hxr : x - a.length < r.length := by
        simp only [List.length_append] at hl
        omega
      have hmem : charAt r (x - a.length) ∈ r := by
        unfold charAt
        rw [List.getD_eq_getElem r NUL hxr]
        exact List.getElem_mem hxr
      exact hr _ hmem hc
  · rintro ⟨hl, hc⟩
    exact ⟨by simp only [List.length_append]; omega, by rw [charAt_append_left hl]; exact hc⟩

/-- A pass-1 skeleton of kind `k` is allocated exactly for tags whose
expected kind in the dedup shape table is `k`. -/
theorem skelOf_mk_expect {text : Str} {i : Nat} {tn : Option Str} {k : DebugType}
    {nm : Option Str} (h : skelOf text i tn = SkelRes.mk k nm) :
    expectOf (charAt text (i + 1)) = some (some k) := by
  simp only [skelOf] at h
  unfold expectOf
  split_ifs at h ⊢
  all_goals
    first
      | (cases h; rfl)
      | (rcases hsc : stabStrcpy text (i + 3) with _ | nm2 <;>
          rw [hsc] at h <;> first | (cases h; rfl) | cases h)

/-- The pass-1 `'('` placeholder corresponds to the dedup wildcard. -/
theorem skelOf_ref_expect {text : Str} {i : Nat} {tn : Option Str}
    (h : skelOf text i tn = SkelRes.ref) : expectOf (charAt text (i + 1)) = some none := by
  simp only [skelOf] at h
  unfold expectOf
  split_ifs at h ⊢
  all_goals
    first
      | rfl
      | cases h
      | (rcases hsc : stabStrcpy text (i + 3) with _ | nm2 <;> rw [hsc] at h <;> cases h)

/-- Pass-1 position facts survive any invariant-preserving evolution. -/
theorem posFact_mono {text : Str} {i : Nat} {v : Option Nat} {a b : StabState}
    (hp : ParsePres a b) (h : posFact text i v a) : posFact text i v b := by
  rcases hex : expectOf (charAt text (i + 1)) with _ | _ | k
  · simp only [posFact, hex] at h
  · simp only [posFact, hex]
  · simp only [posFact, hex] at h ⊢
    obtain ⟨id, hv, hk⟩ := h
    have hlt : id < a.nodes.length := by
      by_contra hge
      rw [List.getElem?_eq_none (le_of_not_lt hge)] at hk
      simp at hk
    exact ⟨id, hv, by rw [hp.2.2.2.2 id hlt]; exact hk⟩

/-- Full pass-1 specification on success: every `'='` position's backward
scan resolved a slot that is still addressable afterwards, the scratch
list grows by the new entries only, and each processed position satisfies
its position fact at the final state. -/
theorem pass1_spec (text : Str) :
    ∀ (l : List Nat) (st : StabState) (tn : Option Str) (acc : List (Option Nat))
      (st2 : StabState) (acc2 : List (Option Nat)),
      pass1 text st l tn acc = some (st2, acc2, true) →
      (∃ pre, acc2 = acc ++ pre) ∧
      (∀ i ∈ l, ∃ f sub, readTypeEnumBwd text ((i : Int) - 1) = some (f, sub) ∧
        slotOk st2 f sub) ∧
      (∀ j, j < l.length → posFact text (l.getD j 0) (acc2.getD (acc.length + j) none) st2) := by
  intro l
  induction l with
  | nil =>
    intro st tn acc st2 acc2 h
    simp only [pass1, Option.some_inj, Prod.mk.injEq] at h
    obtain ⟨_, e2, _⟩ := h
    refine ⟨⟨[], by rw [← e2, List.append_nil]⟩, ?_, ?_⟩
    · intro i hi
      exact absurd hi (List.not_mem_nil i)
    · intro j hj
      simp at hj
  | cons i rest ih =>
    intro st tn acc st2 acc2 h
    simp only [pass1, Option.bind_eq_bind] at h
    rcases hbwd : readTypeEnumBwd text ((i : Int) - 1) with _ | ⟨f, sub⟩
    · rw [hbwd] at h
      simp at h
    rw [hbwd] at h
    simp only [Option.some_bind] at h
    rcases ht : stabEnumTouch st f sub with _ | st1
    · rw [ht] at h
      simp at h
    rw [ht] at h
    simp only [Option.some_bind] at h
    have hok1 : slotOk st1 f sub := by
      unfold slotOk
      rw [stabEnumRead_touch st st1 f sub ht f sub]
      have := stabEnumTouch_isSome st f sub
      rw [ht] at this
      exact this.symm
    rcases hsk : skelOf text i tn with _ | _ | _ | ⟨k, nm⟩
    · rw [hsk] at h
      simp at h
    · rw [hsk] at h
      simp only [Option.some_inj, Prod.mk.injEq] at h
      exact absurd h.2.2 (by simp)
    · rw [hsk] at h
      simp only [] at h
      obtain ⟨⟨pre, hpre⟩, ihs, ihp⟩ := ih st1 none (acc ++ [none]) st2 acc2 h
      have pres2 : ParsePres st1 st2 :=
        (pass1_pres text rest st1 none (acc ++ [none]) st2 acc2 true h).1
      have hok2 : slotOk st2 f sub := slotOk_of_ParsePres pres2 hok1
      refine ⟨⟨[none] ++ pre, by rw [hpre, List.append_assoc]⟩, ?_, ?_⟩
      · intro i2 hi2
        rcases List.mem_cons.mp hi2 with h2 | h2
        · subst h2
          exact ⟨f, sub, hbwd, hok2⟩
        · exact ihs i2 h2
      · intro j hj
        cases j with
        | zero =>
          have hval : acc2.getD (acc.length + 0) none = none := by
            rw [hpre, List.append_assoc]
            simp only [Nat.add_zero, List.getD_eq_getElem?_getD]
            rw [List.getElem?_append_right (le_refl _)]
            simp
          rw [List.getD_cons_zero, hval]
          unfold posFact
          rw [skelOf_ref_expect hsk]
          trivial
        | succ j2 =>
          have hj2 : j2 < rest.length := by simpa using hj
          have hidx : acc.length + (j2 + 1) = (acc ++ [none]).length + j2 := by
            simp only [List.length_append, List.length_singleton]
            omega
          rw [List.getD_cons_succ, hidx]
          exact ihp j2 hj2
    · rw [hsk] at h
      simp only [] at h
      rcases hnd : newDataType st1 k nm with ⟨stA, id⟩
      rw [hnd] at h
      simp only [] at h
      rcases hw : stabEnumWrite stA f sub (some id) with _ | stB
      · rw [hw] at h
        simp at h
      rw [hw] at h
      simp only [Option.some_bind] at h
      obtain ⟨⟨pre, hpre⟩, ihs, ihp⟩ := ih stB none (acc ++ [some id]) st2 acc2 h
      have pres2 : ParsePres stB st2 :=
        (pass1_pres text rest stB none (acc ++ [some id]) st2 acc2 true h).1
      have hpA : ParsePres st1 stA := by
        have hh := (ParsePres_newDataType st1 k nm).1
        rw [hnd] at hh
        exact hh
      have presA2 : ParsePres stA st2 := ParsePres_trans (ParsePres_write hw) pres2
      have hok2 : slotOk st2 f sub :=
        slotOk_of_ParsePres (ParsePres_trans hpA presA2) hok1
      refine ⟨⟨[some id] ++ pre, by rw [hpre, List.append_assoc]⟩, ?_, ?_⟩
      · intro i2 hi2
        rcases List.mem_cons.mp hi2 with h2 | h2
        · subst h2
          exact ⟨f, sub, hbwd, hok2⟩
        · exact ihs i2 h2
      · intro j hj
        cases j with
        | zero =>
          have hval : acc2.getD (acc.length + 0) none = some id := by
            rw [hpre, List.append_assoc]
            simp only [Nat.add_zero, List.getD_eq_getElem?_getD]
            rw [List.getElem?_append_right (le_refl _)]
            simp
          rw [List.getD_cons_zero, hval]
          have hkA : ((stA.nodes[id]?).map (fun n => n.kind)) = some k := by
            have hh := (ParsePres_newDataType st1 k nm).2
            rw [hnd] at hh
            exact hh
          have hfA : posFact text i (some id) stA := by
            unfold posFact
            rw [skelOf_mk_expect hsk]
            exact ⟨id, rfl, hkA⟩
          exact posFact_mono presA2 hfA
        | succ j2 =>
          have hj2 : j2 < rest.length := by simpa using hj
          have hidx : acc.length + (j2 + 1) = (acc ++ [some id]).length + j2 := by
            simp only [List.length_append, List.length_singleton]
            omega
          rw [List.getD_cons_succ, hidx]
          exact ihp j2 hj2

/-- Every member of a strictly sorted list is at most its last element. -/
theorem le_getLast_of_sorted : ∀ {l : List Nat} {a : Nat}, l.Pairwise (· < ·) →
    l.getLast? = some a → ∀ x ∈ l, x ≤ a := by
  intro l
  induction l with
  | nil =>
    intro a _ h
    simp at h
  | cons b t ih =>
    intro a hp hlast x hx
    obtain ⟨hb, hp2⟩ := List.pairwise_cons.mp hp
    cases t with
    | nil =>
      simp only [List.getLast?_singleton, Option.some_inj] at hlast
      rcases List.mem_cons.mp hx with h | h
      · omega
      · exact absurd h (List.not_mem_nil x)
    | cons c t2 =>
      rw [List.getLast?_cons_cons] at hlast
      rcases List.mem_cons.mp hx with h | h
      · subst h
        exact le_of_lt (hb a (getLastMem hlast))
      · exact ih hp2 hlast x h

/-- With known tags everywhere, the unconsumed record text itself
satisfies the pass-2 invariant at the full `'='` count. -/
theorem P2Inv_init {orig : Str} (hKT : KnownTags orig) :
    P2Inv orig orig (eqIndices orig).length := by
  refine ⟨orig.length, [], le_refl _, by simp, by simp, by simp, le_refl _, ?_⟩
  intro j hj
  have hmem : (eqIndices orig).getD j 0 ∈ eqIndices orig := getD_mem_of_lt hj
  have hlt : (eqIndices orig).getD j 0 < orig.length := (eqIndices_mem_iff.mp hmem).1
  by_contra hge
  have hNul : charAt orig ((eqIndices orig).getD j 0 + 1) = NUL := by
    unfold charAt
    rw [List.getD_eq_default]
    omega
  have := hKT j hj
  rw [hNul] at this
  exact this (by decide)

/-- What one backward step of pass 2 knows: the rightmost `'='` of the
current text is the `(m-1)`-th original one, its tag character is the
original one, and every truncation at a cut past it restores the invariant
at `m - 1`. -/
theorem P2Inv_step {orig text : Str} {m ci : Nat} (hKT : KnownTags orig)
    (hN : P2Inv orig text m) (hlast : (eqIndices text).getLast? = some ci) :
    1 ≤ m ∧ ci = (eqIndices orig).getD (m - 1) 0 ∧ ci < text.length ∧
    charAt text (ci + 1) = charAt orig (ci + 1) ∧
    (∀ d, ci + 1 ≤ d → P2Inv orig (text.take ci ++ text.drop d) (m - 1)) := by
  obtain ⟨k, r, hk, htext, hrfree, hEqTake, hmle, hpos⟩ := hN
  have hEq : eqIndices text = (eqIndices orig).take m := by
    rw [htext, eqIndices_append_noeq hrfree, hEqTake]
  have hm1 : 1 ≤ m := by
    by_contra h0
    have hm0 : m = 0 := by omega
    rw [hEq, hm0] at hlast
    simp at hlast
  have hmlt : m - 1 < (eqIndices orig).length := by omega
  have hci : ci = (eqIndices orig).getD (m - 1) 0 := by
    rw [hEq, List.getLast?_eq_getElem?] at hlast
    have hlen : ((eqIndices orig).take m).length = m := by
      simp only [List.length_take]
      omega
    rw [hlen, List.getElem?_take, if_pos (by omega : m - 1 < m),
      List.getElem?_eq_getElem hmlt] at hlast
    simp only [Option.some_inj] at hlast
    rw [← hlast, List.getD_eq_getElem _ 0 hmlt]
  have hmemT : ci ∈ eqIndices text := getLastMem hlast
  have hcilt : ci < text.length := eqIndices_mem_lt hmemT
  have hcik : ci + 2 ≤ k := by
    have := hpos (m - 1) (by omega)
    omega
  have hchar : charAt text (ci + 1) = charAt orig (ci + 1) := by
    rw [htext]
    exact charAt_prefix hk (by omega)
  refine ⟨hm1, hci, hcilt, hchar, ?_⟩
  intro d hd
  have htake : text.take ci = orig.take ci := by
    rw [htext, List.take_append_of_le_length (by simp only [List.length_take]; omega),
      List.take_take, min_eq_left (by omega)]
  refine ⟨ci, text.drop d, by omega, by rw [htake], ?_, ?_, by omega, ?_⟩
  · intro c hc
    obtain ⟨n, hn, hcn⟩ := List.mem_iff_getElem.mp hc
    intro hceq
    have hdn : d + n < text.length := by
      have := List.getElem?_drop text d n
      rw [List.getElem?_eq_getElem hn] at this
      have h2 := List.getElem?_eq_some.mp this.symm
      obtain ⟨hh, _⟩ := h2
      exact hh
    have hch : charAt text (d + n) = '=' := by
      unfold charAt
      rw [List.getD_eq_getElem?_getD, ← List.getElem?_drop,
        List.getElem?_eq_getElem hn, hcn, hceq]
      rfl
    have hmem2 : d + n ∈ eqIndices text := eqIndices_mem_iff.mpr ⟨hdn, hch⟩
    have := le_getLast_of_sorted (eqIndices_pairwise text) hlast (d + n) hmem2
    omega
  · apply sorted_eq_of_mem_iff (eqIndices_pairwise _)
      (List.Pairwise.sublist (List.take_sublist _ _) (eqIndices_pairwise orig))
    intro x
    rw [mem_eqIndices_take, mem_take_sorted (eqIndices_pairwise orig) hmlt x, ← hci]
    exact ⟨fun ⟨h1, h2⟩ => ⟨h2, h1⟩, fun ⟨h1, h2⟩ => ⟨h2, h1⟩⟩
  · intro j hj
    have hjlt : (eqIndices orig).getD j 0 < ci := by
      rw [hci]
      rw [List.getD_eq_getElem _ 0 (by omega : j < (eqIndices orig).length),
        List.getD_eq_getElem _ 0 hmlt]
      exact (List.pairwise_iff_getElem.mp (eqIndices_pairwise orig)) j (m - 1)
        (by omega) hmlt (by omega)
    by_contra hge
    have hadj : (eqIndices orig).getD j 0 + 1 = ci := by omega
    have hciE : charAt orig ci = '=' := by
      have hmem3 : ci ∈ eqIndices orig := by
        rw [hci]
        exact getD_mem_of_lt hmlt
      exact (eqIndices_mem_iff.mp hmem3).2
    have := hKT j (by omega)
    rw [hadj, hciE] at this
    exact this (by decide)

/-- A successful pass-2 run never touches the scratch entries of
sub-definitions whose tag is not the `'('` cross-reference: pass 2 writes
`curr_types[ntp]` only in its `'('` case, and the decreasing scratch index
stays aligned with the position of the `'='` being consumed. -/
theorem pass2_noWrite (orig : Str) (tn : Option Str) (hKT : KnownTags orig) :
    ∀ (fuel m : Nat) (st : StabState) (text : Str) (ct : List (Option Nat))
      (st' : StabState) (t' : Str) (ct' : List (Option Nat)),
      P2Inv orig text m →
      pass2 tn fuel st text ct ((m : Int) - 1) = some (st', t', ct', true) →
      ∀ j, j < (eqIndices orig).length →
        charAt orig ((eqIndices orig).getD j 0 + 1) ≠ '(' →
        ct'.getD j none = ct.getD j none := by
  intro fuel
  induction fuel with
  | zero =>
    intro m st text ct st' t' ct' _ h
    simp [pass2] at h
  | succ n ih =>
    intro m st text ct st' t' ct' hN h
    simp only [pass2] at h
    rcases hlast : (eqIndices text).getLast? with _ | ci
    · rw [hlast] at h
      simp only [Option.some_inj, Prod.mk.injEq] at h
      obtain ⟨_, _, e3, _⟩ := h
      intro j _ _
      rw [e3]
    · rw [hlast] at h
      simp only [] at h
      rcases hstep : pass2Step st text ci ct ((m : Int) - 1) tn
        with _ | ⟨stm, tm, ctm, ntpm, b⟩
      · rw [hstep] at h
        simp at h
      · rw [hstep] at h
        cases b
        · simp only [] at h
          simp only [Option.some_inj, Prod.mk.injEq] at h
          exact absurd h.2.2.2 (by simp)
        · simp only [] at h
          obtain ⟨hm1, hciEq, hcilt, hchar, hpres⟩ := P2Inv_step hKT hN hlast
          obtain ⟨_, hntp, ⟨d, hd1, hd2⟩, hct⟩ := pass2Step_spec hcilt hstep
          have hN2 : P2Inv orig tm (m - 1) := by
            rw [hd2]
            exact hpres d hd1
          have hntp2 : ntpm = ((m - 1 : Nat) : Int) - 1 := by omega
          rw [hntp2] at h
          intro j hj hjtag
          have hrec := ih (m - 1) stm tm ctm st' t' ct' hN2 h j hj hjtag
          rw [hrec]
          rcases hct with hct | ⟨htag, hge0, hlt, v, hset⟩
          · rw [hct]
          · have hjm : j ≠ m - 1 := by
              intro hjeq
              apply hjtag
              rw [hjeq, ← hciEq, ← hchar]
              exact htag
            have htoNat : ((m : Int) - 1).toNat = m - 1 := by omega
            rw [hset, htoNat, List.getD_eq_getElem?_getD, List.getD_eq_getElem?_getD,
              List.getElem?_set_ne (fun hh => hjm hh.symm)]

/-- The kind of a cached handle depends only on the node arena. -/
theorem getTypeK_congr {a b : StabState} (hn : b.nodes = a.nodes) (h : Option Nat) :
    getTypeK b h = getTypeK a h := by
  cases h <;> simp [getTypeK, hn]

/-- Registration only prepends to the registry: slot reads and the node
arena are untouched. -/
theorem registerTypedef_parts (st : StabState) (name : Str) (types : List (Option Nat)) :
    (registerTypedef st name types).nodes = st.nodes ∧
    (∀ f sub, stabEnumRead (registerTypedef st name types) f sub = stabEnumRead st f sub) := by
  unfold registerTypedef
  split_ifs <;> exact ⟨rfl, fun f sub => rfl⟩

/-- Building a successful shape check: with matching counts and a matching
kind (or the wildcard) at every position, the comparison loop reports a
full match without touching the state. -/
theorem shapeCheck_intro (text : Str) (ktypes : List (Option Nat)) (st : StabState) :
    ∀ (l : List Nat) (count : Nat),
      ktypes.length = count + l.length →
      (∀ j, j < l.length →
        match expectOf (charAt text (l.getD j 0 + 1)) with
        | none => False
        | some none => True
        | some (some k) => getTypeK st (ktypes.getD (count + j) none) = some k) →
      shapeCheck ktypes text st l count = some (st, true) := by
  intro l
  induction l with
  | nil =>
    intro count hlen _
    unfold shapeCheck
    rw [show count = ktypes.length by simp at hlen; omega]
    simp
  | cons i rest ihl =>
    intro count hlen hfacts
    have hcount : ¬ ktypes.length ≤ count := by
      simp only [List.length_cons] at hlen
      omega
    simp only [shapeCheck]
    rw [if_neg hcount]
    have h0 := hfacts 0 (by simp)
    simp only [List.getD_cons_zero, Nat.add_zero] at h0
    have hrest : ∀ j, j < rest.length →
        match expectOf (charAt text (rest.getD j 0 + 1)) with
        | none => False
        | some none => True
        | some (some k) => getTypeK st (ktypes.getD (count + 1 + j) none) = some k := by
      intro j hj
      have := hfacts (j + 1) (by simp only [List.length_cons]; omega)
      simp only [List.getD_cons_succ] at this
      rw [show count + (j + 1) = count + 1 + j by omega] at this
      exact this
    have hlen2 : ktypes.length = count + 1 + rest.length := by
      simp only [List.length_cons] at hlen
      omega
    rcases hex : expectOf (charAt text (i + 1)) with _ | _ | k
    · rw [hex] at h0
      exact h0.elim
    · simp only []
      exact ihl (count + 1) hlen2 hrest
    · rw [hex] at h0
      simp only [] at h0
      simp only []
      rw [h0]
      simp only []
      rw [if_pos trivial]
      exact ihl (count + 1) hlen2 hrest

/-- A fully matching shape check leaves the state untouched, and replays
verbatim at any state with the same node arena. -/
theorem shapeCheck_true_congr (ktypes : List (Option Nat)) (text : Str) :
    ∀ (l : List Nat) (count : Nat) (a a1 b : StabState),
      shapeCheck ktypes text a l count = some (a1, true) →
      b.nodes = a.nodes →
      a1 = a ∧ shapeCheck ktypes text b l count = some (b, true) := by
  intro l
  induction l with
  | nil =>
    intro count a a1 b h _
    simp only [shapeCheck, Option.some_inj, Prod.mk.injEq] at h ⊢
    exact ⟨h.1.symm, trivial, h.2⟩
  | cons i rest ihl =>
    intro count a a1 b h hn
    simp only [shapeCheck] at h ⊢
    by_cases hle : ktypes.length ≤ count
    · rw [if_pos hle] at h
      simp only [Option.some_inj, Prod.mk.injEq] at h
      exact absurd h.2 (by simp)
    · rw [if_neg hle] at h ⊢
      rcases hex : expectOf (charAt text (i + 1)) with _ | _ | k
      · rw [hex] at h
        simp only [Option.some_inj, Prod.mk.injEq] at h
        exact absurd h.2 (by simp)
      · rw [hex] at h
        simp only []
        exact ihl (count + 1) a a1 b h hn
      · rw [hex] at h
        simp only [] at h
        simp only []
        rcases hg : getTypeK a (ktypes.getD count none) with _ | k2
        · rw [hg] at h
          simp at h
        · rw [hg] at h
          rw [getTypeK_congr hn, hg]
          simp only [] at h ⊢
          by_cases hk : k = k2
          · rw [if_pos hk] at h ⊢
            exact ihl (count + 1) a a1 b h hn
          · rw [if_neg hk] at h
            simp only [Option.some_inj, Prod.mk.injEq] at h
            exact absurd h.2 (by simp)

/-- What a successful rebind run proves about its own inputs: all backward
scans resolved, all written slots stay addressable, and nodes, registry
and log are untouched. -/
theorem rebindLoop_extract (text : Str) (ktypes : List (Option Nat)) :
    ∀ (l : List Nat) (st : StabState) (count : Nat) (st2 : StabState),
      rebindLoop text ktypes st l count = some st2 →
      ParsePres st st2 ∧ st2.nodes = st.nodes ∧ st2.log = st.log ∧
      ∀ i ∈ l, ∃ f sub, readTypeEnumBwd text ((i : Int) - 1) = some (f, sub) ∧
        slotOk st2 f sub := by
  intro l
  induction l with
  | nil =>
    intro st count st2 h
    simp only [rebindLoop, Option.some_inj] at h
    subst h
    exact ⟨ParsePres_refl _, rfl, rfl, fun i hi => absurd hi (List.not_mem_nil i)⟩
  | cons i rest ihl =>
    intro st count st2 h
    simp only [rebindLoop, Option.bind_eq_bind] at h
    rcases hbwd : readTypeEnumBwd text ((i : Int) - 1) with _ | ⟨f, sub⟩
    · rw [hbwd] at h
      simp at h
    rw [hbwd] at h
    simp only [Option.some_bind] at h
    rcases hw : stabEnumWrite st f sub (ktypes.getD count none) with _ | st1
    · rw [hw] at h
      simp at h
    rw [hw] at h
    simp only [Option.some_bind] at h
    obtain ⟨hp2, hn2, hl2, hs2⟩ := ihl st1 (count + 1) st2 h
    obtain ⟨hnw, _, _, _, hlw⟩ := stabEnumWrite_parts st st1 f sub _ hw
    have hok1 : slotOk st1 f sub := by
      unfold slotOk
      rw [stabEnumWrite_read_self st st1 f sub _ hw]
      rfl
    refine ⟨ParsePres_trans (ParsePres_write hw) hp2, hn2.trans hnw, hl2.trans hlw, ?_⟩
    intro i2 hi2
    rcases List.mem_cons.mp hi2 with h2 | h2
    · subst h2
      exact ⟨f, sub, hbwd, slotOk_of_ParsePres hp2 hok1⟩
    · exact hs2 i2 h2

/-- A rebind run succeeds whenever every `'='` position's backward scan
resolves an addressable slot; it changes no nodes and logs nothing. -/
theorem rebindLoop_ok (text : Str) (ktypes : List (Option Nat)) :
    ∀ (l : List Nat) (st : StabState) (count : Nat),
      (∀ i ∈ l, ∃ f sub, readTypeEnumBwd text ((i : Int) - 1) = some (f, sub) ∧
        slotOk st f sub) →
      ∃ st2, rebindLoop text ktypes st l count = some st2 ∧
        ParsePres st st2 ∧ st2.nodes = st.nodes ∧ st2.log = st.log := by
  intro l
  induction l with
  | nil =>
    intro st count _
    exact ⟨st, rfl, ParsePres_refl st, rfl, rfl⟩
  | cons i rest ihl =>
    intro st count hslots
    obtain ⟨f, sub, hbwd, hok⟩ := hslots i (List.mem_cons_self i rest)
    have hwex : ∃ st1, stabEnumWrite st f sub (ktypes.getD count none) = some st1 := by
      have hiso := stabEnumWrite_isSome st f sub (ktypes.getD count none)
      unfold slotOk at hok
      rw [hok] at hiso
      exact Option.isSome_iff_exists.mp hiso
    obtain ⟨st1, hw1⟩ := hwex
    obtain ⟨hnw, _, _, _, hlw⟩ := stabEnumWrite_parts st st1 f sub _ hw1
    have hpres1 : ParsePres st st1 := ParsePres_write hw1
    obtain ⟨st2, hrec, hp2, hn2, hl2⟩ := ihl st1 (count + 1) (fun i2 hi2 => by
      obtain ⟨f2, s2, hb2, ho2⟩ := hslots i2 (List.mem_cons_of_mem i hi2)
      exact ⟨f2, s2, hb2, slotOk_of_ParsePres hpres1 ho2⟩)
    refine ⟨st2, ?_, ParsePres_trans hpres1 hp2, hn2.trans hnw, hl2.trans hlw⟩
    simp only [rebindLoop, Option.bind_eq_bind]
    rw [hbwd]
    simp only [Option.some_bind]
    rw [hw1]
    simp only [Option.some_bind]
    exact hrec

/-- C1 as amended: idempotence holds for records with at least two `'='`
sub-definitions (those are the ones `DEBUG_RegisterTypedef` caches).
After one successful parse of such a record, re-parsing the same text
under the same name is handled entirely by the dedup lookup: it reports
`TRUE`, allocates no type node, and only rebinds the `'='`-position slots
to the cached nodes.  (With exactly one sub-definition the record is
never registered, and a re-parse allocates a fresh node — see the
counterexample.) -/
theorem c1_amended (st st' : StabState) (text t' name : Str)
    (hrun : parseTypedefStab st text name = some (st', t', true))
    (hcnt : 2 ≤ countEq text) :
    ∃ st2, handlePreviousTypedef st' name text = some (st2, true) ∧
      st2.nodes = st'.nodes ∧
      parseTypedefStab st' text name = some (st2, text, true) := by
  unfold parseTypedefStab at hrun
  rcases hprev : handlePreviousTypedef st name text with _ | ⟨st1, b1⟩
  · rw [hprev] at hrun
    simp at hrun
  rw [hprev] at hrun
  cases b1
  · -- fresh parse: the record was registered, the lookup replays it
    simp only [] at hrun
    have hne : ¬ eqIndices text = [] := by
      intro hh
      unfold countEq at hcnt
      rw [hh] at hcnt
      simp at hcnt
    rcases hp1 : pass1 text st1 (eqIndices text) (some name) [] with _ | ⟨st2p, acc, b2⟩
    · rw [hp1] at hrun
      simp at hrun
    rw [hp1] at hrun
    cases b2
    · simp only [] at hrun
      simp only [Option.some_inj, Prod.mk.injEq] at hrun
      exact absurd hrun.2.2 (by simp)
    simp only [] at hrun
    rw [if_neg hne] at hrun
    have hlen1 : acc.length = (eqIndices text).length := by
      have := (pass1_pres text (eqIndices text) st1 (some name) [] st2p acc true hp1).2 rfl
      simpa using this
    rw [hlen1] at hrun
    rcases hp2run : pass2 none (text.length + 1) st2p text acc
        (((eqIndices text).length : Int) - 1) with _ | ⟨st3, t3, ct3, b3⟩
    · rw [hp2run] at hrun
      simp at hrun
    rw [hp2run] at hrun
    cases b3
    · simp only [] at hrun
      simp only [Option.some_inj, Prod.mk.injEq] at hrun
      exact absurd hrun.2.2 (by simp)
    simp only [] at hrun
    simp only [Option.some_inj, Prod.mk.injEq] at hrun
    obtain ⟨e1, _, _⟩ := hrun
    obtain ⟨⟨pre, hpre⟩, hslots1, hposf⟩ :=
      pass1_spec text (eqIndices text) st1 (some name) [] st2p acc hp1
    have hKT : KnownTags text := by
      intro j hj
      have hpf := hposf j hj
      intro hnone
      unfold posFact at hpf
      rw [hnone] at hpf
      exact hpf
    obtain ⟨hpp23, hlen2⟩ := pass2_facts none (text.length + 1) st2p text acc
      (((eqIndices text).length : Int) - 1) st3 t3 ct3 hp2run
    have hnw := pass2_noWrite text none hKT (text.length + 1) (eqIndices text).length
      st2p text acc st3 t3 ct3 (P2Inv_init hKT) hp2run
    have hct3len : ct3.length = (eqIndices text).length := by rw [hlen2, hlen1]
    have hne1 : ¬ ct3.length = 1 := by
      unfold countEq at hcnt
      omega
    have hreg : (registerTypedef st3 name ct3).registry = ⟨name, ct3⟩ :: st3.registry := by
      unfold registerTypedef
      rw [if_neg hne1]
    have hnodesR := (registerTypedef_parts st3 name ct3).1
    have hreadR := (registerTypedef_parts st3 name ct3).2
    have hfindS : (registerTypedef st3 name ct3).registry.find?
        (fun e => decide (e.ktname = name)) = some ⟨name, ct3⟩ := by
      rw [hreg]
      apply List.find?_cons_of_pos
      simp
    have hshapeS : shapeCheck ct3 text (registerTypedef st3 name ct3) (eqIndices text) 0 =
        some (registerTypedef st3 name ct3, true) := by
      apply shapeCheck_intro
      · rw [hct3len]
        omega
      · intro j hj
        have hpf3 : posFact text ((eqIndices text).getD j 0) (acc.getD j none) st3 := by
          have := hposf j hj
          simp only [List.length_nil, Nat.zero_add] at this
          exact posFact_mono hpp23 this
        rcases hex : expectOf (charAt text ((eqIndices text).getD j 0 + 1)) with _ | _ | k
        · unfold posFact at hpf3
          rw [hex] at hpf3
          exact hpf3
        · trivial
        · have htagne : charAt text ((eqIndices text).getD j 0 + 1) ≠ '(' := by
            intro htagp
            rw [htagp] at hex
            rw [show expectOf '(' = some none by decide] at hex
            simp at hex
          have hctj : ct3.getD j none = acc.getD j none := hnw j hj htagne
          unfold posFact at hpf3
          rw [hex] at hpf3
          obtain ⟨id, hv, hk⟩ := hpf3
          simp only [Nat.zero_add]
          rw [hctj, hv]
          unfold getTypeK
          rw [hnodesR]
          exact hk
    have hslotsS : ∀ i ∈ eqIndices text, ∃ f sub,
        readTypeEnumBwd text ((i : Int) - 1) = some (f, sub) ∧
        slotOk (registerTypedef st3 name ct3) f sub := by
      intro i hi
      obtain ⟨f, sub, hb, ho⟩ := hslots1 i hi
      refine ⟨f, sub, hb, ?_⟩
      unfold slotOk
      rw [hreadR f sub]
      exact slotOk_of_ParsePres hpp23 ho
    obtain ⟨st2, hreb2, _, hnodes2, _⟩ :=
      rebindLoop_ok text ct3 (eqIndices text) (registerTypedef st3 name ct3) 0 hslotsS
    have hH2 : handlePreviousTypedef (registerTypedef st3 name ct3) name text =
        some (st2, true) := by
      unfold handlePreviousTypedef
      rw [hfindS]
      simp only []
      rw [hshapeS]
      simp only []
      rw [hreb2]
    have hP2S : parseTypedefStab (registerTypedef st3 name ct3) text name =
        some (st2, text, true) := by
      unfold parseTypedefStab
      rw [hH2]
    exact ⟨st2, by rw [← e1]; exact hH2, by rw [← e1]; exact hnodes2,
      by rw [← e1]; exact hP2S⟩
  · -- the first parse itself was a dedup replay: replay once more
    simp only [] at hrun
    simp only [Option.some_inj, Prod.mk.injEq] at hrun
    obtain ⟨e1, e2, _⟩ := hrun
    unfold handlePreviousTypedef at hprev
    rcases hfind : st.registry.find? (fun e => decide (e.ktname = name)) with _ | ktd
    · rw [hfind] at hprev
      simp only [Option.some_inj, Prod.mk.injEq] at hprev
      exact absurd hprev.2 (by simp)
    rw [hfind] at hprev
    simp only [] at hprev
    rcases hshape : shapeCheck ktd.ktypes text st (eqIndices text) 0 with _ | ⟨stx, bs⟩
    · rw [hshape] at hprev
      simp at hprev
    rw [hshape] at hprev
    cases bs
    · simp only [] at hprev
      simp only [Option.some_inj, Prod.mk.injEq] at hprev
      exact absurd hprev.2 (by simp)
    simp only [] at hprev
    rcases hreb : rebindLoop text ktd.ktypes stx (eqIndices text) 0 with _ | st2r
    · rw [hreb] at hprev
      simp at hprev
    rw [hreb] at hprev
    simp only [Option.some_inj, Prod.mk.injEq] at hprev
    obtain ⟨er, _⟩ := hprev
    have hstx : stx = st :=
      (shapeCheck_true_congr ktd.ktypes text (eqIndices text) 0 st stx st hshape rfl).1
    subst hstx
    obtain ⟨hpres, hnodes, _, hslots⟩ :=
      rebindLoop_extract text ktd.ktypes (eqIndices text) stx 0 st2r hreb
    have hfind2 : st2r.registry.find? (fun e => decide (e.ktname = name)) = some ktd := by
      rw [hpres.1]
      exact hfind
    have hshape2 : shapeCheck ktd.ktypes text st2r (eqIndices text) 0 = some (st2r, true) :=
      (shapeCheck_true_congr ktd.ktypes text (eqIndices text) 0 stx stx st2r hshape hnodes).2
    obtain ⟨st2, hreb2, _, hnodes2, _⟩ :=
      rebindLoop_ok text ktd.ktypes (eqIndices text) st2r 0 hslots
    have hH2 : handlePreviousTypedef st2r name text = some (st2, true) := by
      unfold handlePreviousTypedef
      rw [hfind2]
      simp only []
      rw [hshape2]
      simp only []
      rw [hreb2]
    have hP2S : parseTypedefStab st2r text name = some (st2, text, true) := by
      unfold parseTypedefStab
      rw [hH2]
    exact ⟨st2, by rw [← e1, ← er]; exact hH2, by rw [← e1, ← er]; exact hnodes2,
      by rw [← e1, ← er]; exact hP2S⟩

/-- C1 witness: the two-sub-definition record, once parsed, replays
through the dedup lookup with no new node. -/
theorem c1_witness :
    2 ≤ countEq c1wtext ∧
    ∃ st2, handlePreviousTypedef c1wst1 c1wname c1wtext = some (st2, true) ∧
      st2.nodes = c1wst1.nodes ∧
      parseTypedefStab c1wst1 c1wtext c1wname = some (st2, c1wtext, true) :=
  ⟨by decide, c1_amended initState c1wst1 c1wtext c1wcut c1wname (by decide) (by decide)⟩
